import Mathlib

/-!
# Verification of the OpenAlex client's digestion / pagination core

A shallow embedding of `openalex_api_client/client.py` (the
`OpenAlexParser` digestion engine and the pagination loop of
`OpenAlexClient.list_all_resources`) together with theorems settling the
frozen claims about the repository.

Python values reaching the parser are JSON-decoded data: `None`,
booleans, integers, strings, lists and string-keyed dictionaries.  They
are embedded as the inductive type `Val`.  Dictionaries are association
lists in insertion order (Python 3.7+ dict semantics).  Fallible Python
code (statements that can raise) is embedded with `Except Unit` /
`Option`; `try/except` blocks become explicit alternatives.
-/

namespace OpenAlex

/-- Embedded Python/JSON value. -/
inductive Val where
  | null : Val
  | bool : Bool → Val
  | int : Int → Val
  | str : String → Val
  | list : List Val → Val
  | dict : List (String × Val) → Val

/-- Python truthiness of a value (`bool(v)`). -/
def Val.truthy : Val → Bool
  | .null => false
  | .bool b => b
  | .int n => n != 0
  | .str s => !s.isEmpty
  | .list xs => !xs.isEmpty
  | .dict fs => !fs.isEmpty

/-- Whether a value is hashable in Python (lists and dicts are not). -/
def Val.hashable : Val → Bool
  | .list _ => false
  | .dict _ => false
  | _ => true

/-- Canonical form used for Python equality: `True == 1` and
`False == 0`, so booleans are identified with integers.  Only hashable
(scalar) values are ever compared in the embedded code, so the
identification at the top level suffices. -/
def Val.canon : Val → Val
  | .bool b => .int (if b then 1 else 0)
  | v => v

/-- Structural equality test on values (after canonicalisation this
models Python `==` on the scalar values that can be stored in sets). -/
def Val.beq : Val → Val → Bool
  | .null, .null => true
  | .bool a, .bool b => a == b
  | .int a, .int b => a == b
  | .str a, .str b => a == b
  | _, _ => false

/-- Python equality on (scalar) values: `a == b`. -/
def pyEq (a b : Val) : Bool := Val.beq a.canon b.canon

/-- `d.get(k)` on a Python dict: the value at the first (unique) matching
key, if any. -/
def pyGet {β : Type} (fs : List (String × β)) (k : String) : Option β :=
  match fs with
  | [] => none
  | (k', v) :: rest => if k' = k then some v else pyGet rest k

/-- `d[k] = v` on a Python dict: replace in place if the key exists
(keeping its position), otherwise append. -/
def setKey {β : Type} (p : List (String × β)) (k : String) (v : β) : List (String × β) :=
  match p with
  | [] => [(k, v)]
  | (k', v') :: rest => if k' = k then (k, v) :: rest else (k', v') :: setKey rest k v

/-- `s.add(v)` on a Python set modelled as a duplicate-free list in
insertion order (the first-inserted representative is kept, as in
CPython). -/
def insertDedup (acc : List Val) (v : Val) : List Val :=
  if acc.any (fun w => pyEq w v) then acc else acc ++ [v]

/-- Lexicographic comparison of character lists by code point. -/
def strLeB : List Char → List Char → Bool
  | [], _ => true
  | _ :: _, [] => false
  | a :: as, b :: bs =>
    if a.toNat < b.toNat then true
    else if b.toNat < a.toNat then false
    else strLeB as bs

/-- Python string `<=`: lexicographic on code points. -/
def strLe (s t : String) : Bool := strLeB s.data t.data

/-- Ascending insertion into a sorted list of strings. -/
def insertSorted (s : String) : List String → List String
  | [] => [s]
  | t :: ts => if strLe s t then s :: t :: ts else t :: insertSorted s ts

/-- Python `sorted` on a collection of (distinct) strings: lexicographic
ascending order on code points. -/
def sortStrs (l : List String) : List String := l.foldr insertSorted []

/-- `"|".join(l)`. -/
def pipeJoin (l : List String) : String := String.intercalate "|" l

/-! ## Array-index notation in keys (`re` patterns `\[\d+\]`)

`merge_and_deduplicate` recognises keys holding an index group
`[digits]` with `re.search(r'\[\d+\]', key)` and removes all such groups
with `re.sub(r'\[\d+\]', '', key)` scanning left to right. -/

/-- After the digits of a candidate `[digits]` group, the group matches
exactly when the next character closes the bracket. -/
def closeBracketAt : List Char → Option (List Char)
  | x :: rest2 => if x = ']' then some rest2 else none
  | [] => none

/-- At a position starting with `'['`, try to consume one `[digits]`
group (greedy digits, then a closing `']'`), returning the remainder. -/
def dropIndexAt : List Char → Option (List Char)
  | [] => none
  | c :: rest =>
    if c = '[' then
      if (rest.takeWhile (·.isDigit)).isEmpty then none
      else closeBracketAt (rest.dropWhile (·.isDigit))
    else none

theorem dropIndexAt_length {cs rest : List Char} (h : dropIndexAt cs = some rest) :
    rest.length + 2 ≤ cs.length := by
  cases cs with
  | nil => simp [dropIndexAt] at h
  | cons c cs' =>
    simp only [dropIndexAt] at h
    by_cases hc : c = '['
    · rw [if_pos hc] at h
      by_cases he : (cs'.takeWhile (·.isDigit)).isEmpty
      · rw [if_pos he] at h; exact absurd h (by simp)
      · rw [if_neg he] at h
        cases hdw : cs'.dropWhile (·.isDigit) with
        | nil => rw [hdw] at h; exact absurd h (by simp [closeBracketAt])
        | cons x rest2 =>
          rw [hdw] at h
          simp only [closeBracketAt] at h
          by_cases hx : x = ']'
          · rw [if_pos hx] at h
            injection h with h
            subst h
            have hlen : (cs'.dropWhile (·.isDigit)).length ≤ cs'.length :=
              (List.dropWhile_sublist _).length_le
            rw [hdw] at hlen
            simp only [List.length_cons] at hlen ⊢
            omega
          · rw [if_neg hx] at h; exact absurd h (by simp)
    · rw [if_neg hc] at h; exact absurd h (by simp)

/-- Fuelled left-to-right scan removing every `[digits]` group; the
fuel only serves structural recursion and is never exhausted when it
exceeds the list length. -/
def stripIdxF : Nat → List Char → List Char
  | 0, cs => cs
  | _ + 1, [] => []
  | fuel + 1, c :: cs =>
    match dropIndexAt (c :: cs) with
    | some rest => stripIdxF fuel rest
    | none => c :: stripIdxF fuel cs

/-- `re.sub(r'\[\d+\]', '', ·)` on the character list. -/
def stripIdx (cs : List Char) : List Char := stripIdxF (cs.length + 1) cs

theorem stripIdxF_congr : ∀ (fuel fuel' : Nat) (cs : List Char),
    cs.length < fuel → cs.length < fuel' → stripIdxF fuel cs = stripIdxF fuel' cs := by
  intro fuel
  induction fuel with
  | zero => intro fuel' cs h; omega
  | succ fuel ih =>
    intro fuel' cs h h'
    match fuel', cs with
    | 0, cs => omega
    | fuel' + 1, [] => rfl
    | fuel' + 1, c :: cs =>
      simp only [stripIdxF]
      cases hd : dropIndexAt (c :: cs) with
      | some rest =>
        have := dropIndexAt_length hd
        simp only [List.length_cons] at h h' this
        exact ih fuel' rest (by omega) (by omega)
      | none =>
        simp only [List.length_cons] at h h'
        rw [ih fuel' cs (by omega) (by omega)]

/-- The intended unfolding of `stripIdx` on a nonempty list. -/
theorem stripIdx_cons (c : Char) (cs : List Char) :
    stripIdx (c :: cs) =
      match dropIndexAt (c :: cs) with
      | some rest => stripIdx rest
      | none => c :: stripIdx cs := by
  show stripIdxF (cs.length + 1 + 1) (c :: cs) = _
  simp only [stripIdxF]
  cases hd : dropIndexAt (c :: cs) with
  | some rest =>
    have := dropIndexAt_length hd
    simp only [List.length_cons] at this
    exact stripIdxF_congr _ _ rest (by omega) (by omega)
  | none => rfl

theorem stripIdx_nil : stripIdx [] = [] := rfl

/-- `re.search(r'\[\d+\]', ·) is not None` on the character list. -/
def containsIdx : List Char → Bool
  | [] => false
  | c :: cs => (dropIndexAt (c :: cs)).isSome || containsIdx cs

/-- String versions of the two regex operations. -/
def stripS (s : String) : String := ⟨stripIdx s.data⟩

def containsIndexS (s : String) : Bool := containsIdx s.data

/-! ## `OpenAlexParser.merge_and_deduplicate`

```python
merged_data = defaultdict(set)
for key, value in data.items():
    if re.search(r'\[\d+\]', key):
        normalized_key = re.sub(r'\[\d+\]', '', key)
        merged_data[normalized_key].add(value)
    else:
        merged_data[key] = {value}
return {k: '|'.join(sorted(v)) if len(v) > 1 else next(iter(v))
        for k, v in merged_data.items()}
```

Raising statements are modelled by `Except Unit`: `merged_data[key] =
{value}` and `.add(value)` raise `TypeError` on unhashable values;
`sorted(v)` raises on values that are not mutually comparable and
`'|'.join` raises on non-strings, so a multi-element set finalises
successfully exactly when all its elements are strings. -/

/-- Append a value to the set grouped under `n` (creating the group at
the end on first touch, as `defaultdict` does). -/
def addTo (st : List (String × List Val)) (n : String) (v : Val) : List (String × List Val) :=
  match st with
  | [] => [(n, [v])]
  | (k, vs) :: rest => if k = n then (k, insertDedup vs v) :: rest else (k, vs) :: addTo rest n v

/-- `merged_data[k] = {v}`: overwrite the group with a fresh singleton
(keeping the key's position). -/
def setSingleton (st : List (String × List Val)) (n : String) (v : Val) : List (String × List Val) :=
  match st with
  | [] => [(n, [v])]
  | (k, vs) :: rest => if k = n then (k, [v]) :: rest else (k, vs) :: setSingleton rest n v

/-- The grouping loop of `merge_and_deduplicate`. -/
def buildMerged : List (String × Val) → List (String × List Val) →
    Except Unit (List (String × List Val))
  | [], st => .ok st
  | (k, v) :: rest, st =>
    if v.hashable then
      if containsIndexS k then buildMerged rest (addTo st (stripS k) v)
      else buildMerged rest (setSingleton st k v)
    else .error ()

/-- Try to view every value of a list as a string. -/
def asStrs : List Val → Option (List String)
  | [] => some []
  | .str s :: rest => (asStrs rest).map (s :: ·)
  | _ => none

/-- `'|'.join(sorted(v)) if len(v) > 1 else next(iter(v))` on one
group. -/
def finalizeEntry (vs : List Val) : Except Unit Val :=
  match vs with
  | [] => .error ()
  | [v] => .ok v
  | _ =>
    match asStrs vs with
    | some ss => .ok (.str (pipeJoin (sortStrs ss)))
    | none => .error ()

/-- The final dict comprehension. -/
def finalizeAll : List (String × List Val) → Except Unit (List (String × Val))
  | [] => .ok []
  | (k, vs) :: rest =>
    match finalizeEntry vs with
    | .error e => .error e
    | .ok v =>
      match finalizeAll rest with
      | .error e => .error e
      | .ok m => .ok ((k, v) :: m)

/-- `OpenAlexParser.merge_and_deduplicate`. -/
def mergeAndDeduplicate (data : List (String × Val)) : Except Unit (List (String × Val)) :=
  match buildMerged data [] with
  | .error e => .error e
  | .ok st => finalizeAll st

/-! ## `OpenAlexParser.find_display_names` -/

/-- Python substring test `needle in hay`. -/
def strContains (hay needle : String) : Bool := decide (needle.data <:+: hay.data)

/-- `f"{path}.{key}" if path else key`. -/
def joinPath (path k : String) : String := if path = "" then k else path ++ "." ++ k

mutual

/-- `OpenAlexParser.find_display_names`: recursively find all keys whose
name contains `"display_name"`, yielding the pair (dotted/indexed path,
immediate value) and not descending into a yielded value. -/
def findDisplayNames (v : Val) (path : String) : List (String × Val) :=
  match v with
  | .dict fields => fdnFields fields path
  | .list xs => fdnList xs path 0
  | _ => []

/-- Dict branch of the traversal: iterate the items in order. -/
def fdnFields (fields : List (String × Val)) (path : String) : List (String × Val) :=
  match fields with
  | [] => []
  | (k, v) :: rest =>
    (if strContains k "display_name" then [(joinPath path k, v)]
     else findDisplayNames v (joinPath path k)) ++ fdnFields rest path

/-- List branch of the traversal: enumerate with `path[index]`. -/
def fdnList (xs : List Val) (path : String) (i : Nat) : List (String × Val) :=
  match xs with
  | [] => []
  | x :: rest =>
    findDisplayNames x (path ++ "[" ++ toString i ++ "]") ++ fdnList rest path (i + 1)

end

/-! ## `OpenAlexParser.convert_publication_date`

`datetime.strptime(s, '%Y-%m-%d')` is modelled after CPython's
`_strptime`: `%Y` matches exactly four digits, `%m` matches
`1[0-2]|0[1-9]|[1-9]`, `%d` matches `3[01]|[12]\d|0[1-9]|[1-9]` (ordered
alternation), the whole string must be consumed, and the resulting
`datetime(year, month, day)` constructor validates `1 <= year` and
`day <= days_in_month`; a failure gives `None` (the function catches
`ValueError`).  A non-string argument raises `TypeError`, which the
function does *not* catch — callers model that separately. -/

/-- Numeric value of a digit character. -/
def charVal (c : Char) : Nat := c.toNat - 48

/-- `%Y`: exactly four digits. -/
def parseYear4 : List Char → Option (Nat × List Char)
  | a :: b :: c :: d :: rest =>
    if a.isDigit ∧ b.isDigit ∧ c.isDigit ∧ d.isDigit then
      some (((charVal a * 10 + charVal b) * 10 + charVal c) * 10 + charVal d, rest)
    else none
  | _ => none

/-- `%m`: `1[0-2]|0[1-9]|[1-9]` (ordered alternation). -/
def parseMonth : List Char → Option (Nat × List Char)
  | [] => none
  | c :: rest =>
    if c = '1' then
      match rest with
      | c2 :: rest2 =>
        if '0' ≤ c2 ∧ c2 ≤ '2' then some (10 + charVal c2, rest2) else some (1, rest)
      | [] => some (1, [])
    else if c = '0' then
      match rest with
      | c2 :: rest2 => if '1' ≤ c2 ∧ c2 ≤ '9' then some (charVal c2, rest2) else none
      | [] => none
    else if '1' ≤ c ∧ c ≤ '9' then some (charVal c, rest)
    else none

/-- `%d`: `3[01]|[12]\d|0[1-9]|[1-9]` (ordered alternation). -/
def parseDay : List Char → Option (Nat × List Char)
  | [] => none
  | c :: rest =>
    if c = '3' then
      match rest with
      | c2 :: rest2 =>
        if c2 = '0' ∨ c2 = '1' then some (30 + charVal c2, rest2) else some (3, rest)
      | [] => some (3, [])
    else if c = '1' ∨ c = '2' then
      match rest with
      | c2 :: rest2 =>
        if c2.isDigit then some (charVal c * 10 + charVal c2, rest2)
        else some (charVal c, rest)
      | [] => some (charVal c, [])
    else if c = '0' then
      match rest with
      | c2 :: rest2 => if '1' ≤ c2 ∧ c2 ≤ '9' then some (charVal c2, rest2) else none
      | [] => none
    else if '1' ≤ c ∧ c ≤ '9' then some (charVal c, rest)
    else none

def isLeap (y : Nat) : Bool := y % 4 = 0 && (y % 100 ≠ 0 || y % 400 = 0)

def daysInMonth (y m : Nat) : Nat :=
  if m = 2 then (if isLeap y then 29 else 28)
  else if m = 4 ∨ m = 6 ∨ m = 9 ∨ m = 11 then 30
  else 31

/-- `datetime.strptime(s, '%Y-%m-%d')`, returning the (year, month, day)
triple on success. -/
def parseDate (s : String) : Option (Nat × Nat × Nat) :=
  match parseYear4 s.data with
  | some (y, '-' :: rest1) =>
    match parseMonth rest1 with
    | some (m, '-' :: rest2) =>
      match parseDay rest2 with
      | some (d, []) => if y = 0 ∨ daysInMonth y m < d then none else some (y, m, d)
      | _ => none
    | _ => none
  | _ => none

/-- The decimal digit character for `n % 10`. -/
def digitC (n : Nat) : Char :=
  match n % 10 with
  | 0 => '0' | 1 => '1' | 2 => '2' | 3 => '3' | 4 => '4'
  | 5 => '5' | 6 => '6' | 7 => '7' | 8 => '8' | _ => '9'

/-- `%02d`. -/
def pad2 (n : Nat) : String := ⟨[digitC (n / 10), digitC n]⟩

/-- `%04d`. -/
def pad4 (n : Nat) : String := ⟨[digitC (n / 1000), digitC (n / 100), digitC (n / 10), digitC n]⟩

/-- The `YYYY-MM-DD` rendering of a date (as `date.isoformat` would
print the date part). -/
def fmtDate (y m d : Nat) : String := pad4 y ++ "-" ++ pad2 m ++ "-" ++ pad2 d

/-- `OpenAlexParser.convert_publication_date` on a string argument:
`datetime.strptime(s, '%Y-%m-%d').isoformat() + 'Z'`, or `None` when
strptime raises `ValueError`. -/
def convertPublicationDate (s : String) : Option String :=
  (parseDate s).map (fun t => fmtDate t.1 t.2.1 t.2.2 ++ "T00:00:00Z")

/-! ## `OpenAlexParser.extract_abstract` -/

/-- Values usable as Python `int`s in arithmetic/indexing (`bool` is a
subtype of `int`). -/
def intOfVal : Val → Option Int
  | .int n => some n
  | .bool b => some (if b then 1 else 0)
  | _ => none

/-- A positions value must behave as a list of ints; anything else makes
`max`, `* `, or the index assignment raise before a result is produced,
which is modelled as an eager error. -/
def intListOfVal : Val → Option (List Int)
  | .list xs => xs.mapM intOfVal
  | _ => none

/-- Maximum of a nonempty list of ints (`max(l)`); 0 on `[]` (unused:
the empty case is rejected before this is called). -/
def maxInt : List Int → Int
  | [] => 0
  | [x] => x
  | x :: rest => max x (maxInt rest)

/-- `abstract_words[pos] = word` with Python semantics: a negative index
counts from the end; out-of-range raises `IndexError`. -/
def assignWord (len : Nat) (w : String) : List String → List Int → Except Unit (List String)
  | slots, [] => .ok slots
  | slots, p :: ps =>
    let idx : Int := if p < 0 then (len : Int) + p else p
    if 0 ≤ idx ∧ idx < (len : Int) then assignWord len w (slots.set idx.toNat w) ps
    else .error ()

/-- The assignment loop over all words, in dict order. -/
def assignAll (len : Nat) : List String → List (String × List Int) → Except Unit (List String)
  | slots, [] => .ok slots
  | slots, (w, ps) :: rest =>
    match assignWord len w slots ps with
    | .ok slots2 => assignAll len slots2 rest
    | .error e => .error e

/-- The body of `extract_abstract` past the falsiness guard, for a dict
argument: view every positions value as a list of ints (anything else
raises), reject empty position lists (`max` of an empty sequence
raises), allocate `max+1` slots and run the assignment loops. -/
def extractAbstractCore (fs : List (String × Val)) : Except Unit String :=
  match fs.mapM (fun wp => (intListOfVal wp.2).map ((wp.1, ·))) with
  | none => .error ()
  | some wps =>
    if wps.any (fun wp => wp.2.isEmpty) then .error ()
    else
      match assignAll (maxInt (wps.map (fun wp => maxInt wp.2)) + 1).toNat
          (List.replicate (maxInt (wps.map (fun wp => maxInt wp.2)) + 1).toNat "")
          wps with
      | .ok slots => .ok (String.intercalate " " (slots.filter (fun w => !w.isEmpty)))
      | .error _ => .error ()

/-- `OpenAlexParser.extract_abstract`. -/
def extractAbstract (v : Val) : Except Unit String :=
  if !v.truthy then .ok "No abstract available"
  else
    match v with
    | .dict fs => extractAbstractCore fs
    | _ => .error ()

/-! ## `OpenAlexParser.extract_unique_country_codes` -/

/-- `country_codes.add(c)` for a string (sets keep the first inserted
representative; order of insertion is recorded, the result is sorted
anyway). -/
def addCountryStr (acc : List String) (s : String) : List String :=
  if acc.contains s then acc else acc ++ [s]

/-- `country_codes.update(lst)` for a list value.  Non-string elements
are rejected eagerly: an unhashable element raises at `update` and a
hashable non-string raises at the final `sorted`/`join`, so in either
case the enclosing step fails without output. -/
def addCountryList (acc : List String) : List Val → Except Unit (List String)
  | [] => .ok acc
  | .str s :: rest => addCountryList (addCountryStr acc s) rest
  | _ :: _ => .error ()

/-- `country_codes.update(s)` for a string value iterates its
characters. -/
def addCountryChars (acc : List String) (s : String) : List String :=
  s.data.foldl (fun a c => addCountryStr a (String.singleton c)) acc

/-- `country_codes.update(d)` for a dict value iterates its keys. -/
def addCountryKeys (acc : List String) (fs : List (String × Val)) : List String :=
  fs.foldl (fun a kv => addCountryStr a kv.1) acc

/-- The loop over authorship objects; a non-dict author raises at
`author.get`. -/
def collectCountries : List Val → List String → Except Unit (List String)
  | [], acc => .ok acc
  | .dict afs :: rest, acc =>
    match (pyGet afs "countries").getD (.list []) with
    | .list cs => do collectCountries rest (← addCountryList acc cs)
    | .str s => collectCountries rest (addCountryChars acc s)
    | .dict dfs => collectCountries rest (addCountryKeys acc dfs)
    | _ => .error ()
  | _ :: _, _ => .error ()

/-- `OpenAlexParser.extract_unique_country_codes`: iterating a non-list
raises (ints/None are not iterable; dict/str iteration yields values
whose `.get` raises). -/
def extractUniqueCountryCodes (authorships : Val) : Except Unit String :=
  match authorships with
  | .list as => (collectCountries as []).map (fun cs => pipeJoin (sortStrs cs))
  | _ => .error ()

/-! ## `OpenAlexParser.parse_work`

Each extraction step is wrapped in `try/except` in the source; a raise
inside a step leaves the assignments the step made before raising and
moves on.  The final `merge_and_deduplicate` call on the accumulated
dict is *outside* every `try`. -/

/-- `work_data.get(k, default)`: `none` models the `AttributeError` on a
non-dict receiver. -/
def getAttr (rec : Val) (k : String) (dflt : Val) : Option Val :=
  match rec with
  | .dict fs => some ((pyGet fs k).getD dflt)
  | _ => none

def basicFields : List String := ["id", "doi", "title", "publication_year", "language", "type"]

/-- Basic fields: each is copied with `work_data.get(field)` (default
`''` for `doi`, `None` otherwise); each iteration has its own
`try/except`. -/
def basicStep (rec : Val) (p : List (String × Val)) : List (String × Val) :=
  basicFields.foldl
    (fun p f =>
      match getAttr rec f (if f = "doi" then .str "" else .null) with
      | some v => setKey p f v
      | none => p)
    p

/-- `ids = work_data.get('ids', {})`; a non-dict `ids` raises at
`ids.get` before either assignment. -/
def idsStep (rec : Val) (p : List (String × Val)) : List (String × Val) :=
  match getAttr rec "ids" (.dict []) with
  | some (.dict fs) =>
    setKey (setKey p "pmid" ((pyGet fs "pmid").getD (.str "")))
      "mag" ((pyGet fs "mag").getD (.str ""))
  | _ => p

/-- `apc_paid`: nested dict → its `value_usd`; anything else (including
`0` and `None`) is assigned verbatim. -/
def apcStep (rec : Val) (p : List (String × Val)) : List (String × Val) :=
  match getAttr rec "apc_paid" .null with
  | some (.dict fs) => setKey p "apc_paid" ((pyGet fs "value_usd").getD .null)
  | some v => setKey p "apc_paid" v
  | none => p

def countFields : List String :=
  ["referenced_works_count", "cited_by_count", "countries_distinct_count",
   "institutions_distinct_count", "locations_count", "fwci"]

def countsStep (rec : Val) (p : List (String × Val)) : List (String × Val) :=
  countFields.foldl
    (fun p f =>
      match getAttr rec f .null with
      | some v => setKey p f v
      | none => p)
    p

/-- `primary_location = work_data.get('primary_location', {}).get('source', {})`;
a raise anywhere leaves both fields unset (the first assignment's
right-hand side raises first). -/
def primaryLocationStep (rec : Val) (p : List (String × Val)) : List (String × Val) :=
  match getAttr rec "primary_location" (.dict []) with
  | some (.dict plfs) =>
    match (pyGet plfs "source").getD (.dict []) with
    | .dict sfs =>
      setKey (setKey p "primary_location_display_name" ((pyGet sfs "display_name").getD .null))
        "primary_location_host_organization_name"
        ((pyGet sfs "host_organization_name").getD .null)
    | _ => p
  | _ => p

/-- `publication_date`: assigned only when truthy; `strptime` on a
non-string raises `TypeError` (not caught inside
`convert_publication_date`, caught by the step's `except`); a
`ValueError` makes `convert_publication_date` return `None`, which is
assigned. -/
def pubDateStep (rec : Val) (p : List (String × Val)) : List (String × Val) :=
  match getAttr rec "publication_date" .null with
  | some v =>
    if v.truthy then
      match v with
      | .str s =>
        setKey p "publication_date"
          (match convertPublicationDate s with
           | some t => .str t
           | none => .null)
      | _ => p
    else p
  | none => p

/-- `citation_normalized_percentile`: one `percentiles_<key>` field per
item; `.items()` on a non-dict raises before any assignment. -/
def percentilesStep (rec : Val) (p : List (String × Val)) : List (String × Val) :=
  match getAttr rec "citation_normalized_percentile" (.dict []) with
  | some (.dict fs) => fs.foldl (fun p kv => setKey p ("percentiles_" ++ kv.1) kv.2) p
  | _ => p

def openAccessStep (rec : Val) (p : List (String × Val)) : List (String × Val) :=
  match getAttr rec "open_access" (.dict []) with
  | some (.dict fs) =>
    setKey (setKey p "open_access_is_oa" ((pyGet fs "is_oa").getD .null))
      "open_access_oa_status" ((pyGet fs "oa_status").getD .null)
  | _ => p

/-- The `enumerate(grants)` loop; a non-dict grant raises at
`grant.get`, keeping the assignments already made. -/
def grantsLoop (p : List (String × Val)) : List Val → Nat → List (String × Val)
  | [], _ => p
  | .dict gfs :: rest, i =>
    grantsLoop
      (setKey p ("grants" ++ ("[" ++ toString i ++ "]_funder_display_name"))
        ((pyGet gfs "funder_display_name").getD .null))
      rest (i + 1)
  | _ :: _, _ => p

/-- `grants = work_data.get('grants', [])`; iterating a non-list either
raises immediately or yields non-dict items whose `.get` raises, so
nothing is assigned. -/
def grantsStep (rec : Val) (p : List (String × Val)) : List (String × Val) :=
  match getAttr rec "grants" (.list []) with
  | some (.list gs) => grantsLoop p gs 0
  | _ => p

def countriesStep (rec : Val) (p : List (String × Val)) : List (String × Val) :=
  match getAttr rec "authorships" (.list []) with
  | some a =>
    match extractUniqueCountryCodes a with
    | .ok s => setKey p "countries_codes" (.str s)
    | .error _ => p
  | none => p

/-- Path-retention filter of the display-name phase. -/
def keepPath (p : String) : Bool :=
  (strContains p "authorships" || strContains p "topics" || strContains p "keywords" ||
      strContains p "sustainable_development_goals") &&
    strContains p "display_name"

/-- `display_names[path].append(value)` grouping (insertion order of
first occurrence, as a Python dict). -/
def addGroup (g : List (String × List Val)) (p : String) (v : Val) : List (String × List Val) :=
  match g with
  | [] => [(p, [v])]
  | (q, vs) :: rest => if q = p then (q, vs ++ [v]) :: rest else (q, vs) :: addGroup rest p v

/-- `if len(values) > 10: values = values[:10]` applied per path. -/
def capTen (g : List (String × List Val)) : List (String × List Val) :=
  g.map (fun pv => (pv.1, if 10 < pv.2.length then pv.2.take 10 else pv.2))

/-- `"|".join(values)`: defined only when every value is a string. -/
def joinVals (vs : List Val) : Option String := (asStrs vs).map pipeJoin

/-- `path.replace(".", "_")`. -/
def dotsToUnderscores (s : String) : String :=
  ⟨s.data.map (fun c => if c = '.' then '_' else c)⟩

/-- The final assignment loop of the display-name phase; a join raising
`TypeError` aborts the loop keeping earlier assignments. -/
def assignDisplay (p : List (String × Val)) : List (String × List Val) → List (String × Val)
  | [] => p
  | (path, vs) :: rest =>
    match joinVals vs with
    | some s => assignDisplay (setKey p (dotsToUnderscores path) (.str s)) rest
    | none => p

/-- The display-name phase of `parse_work`. -/
def displayStep (rec : Val) (p : List (String × Val)) : List (String × Val) :=
  let pairs := findDisplayNames rec ""
  let groups := pairs.foldl (fun g pv => if keepPath pv.1 then addGroup g pv.1 pv.2 else g) []
  assignDisplay p (capTen groups)

def abstractStep (rec : Val) (p : List (String × Val)) : List (String × Val) :=
  match getAttr rec "abstract_inverted_index" .null with
  | some v =>
    match extractAbstract v with
    | .ok s => setKey p "abstract" (.str s)
    | .error _ => p
  | none => p

/-- The dict accumulated by `parse_work` just before the final merge. -/
def parsedData (rec : Val) (includeAbstract : Bool) : List (String × Val) :=
  let p := basicStep rec []
  let p := idsStep rec p
  let p := apcStep rec p
  let p := countsStep rec p
  let p := primaryLocationStep rec p
  let p := pubDateStep rec p
  let p := percentilesStep rec p
  let p := openAccessStep rec p
  let p := grantsStep rec p
  let p := countriesStep rec p
  let p := displayStep rec p
  if includeAbstract then abstractStep rec p else p

/-- `OpenAlexParser.parse_work`: the accumulated dict is passed to
`merge_and_deduplicate` outside any `try/except`, so an exception there
propagates to the caller (modelled by `.error`). -/
def parseWork (rec : Val) (includeAbstract : Bool) : Except Unit (List (String × Val)) :=
  mergeAndDeduplicate (parsedData rec includeAbstract)

/-- Look a key up in the result of a successful `parse_work` call
(`none` both for an absent key and for a raising call). -/
def parseLookup (rec : Val) (includeAbstract : Bool) (k : String) : Option Val :=
  match parseWork rec includeAbstract with
  | .ok m => pyGet m k
  | .error _ => none

/-- Extract the payload of a successful computation (default
otherwise). -/
def okOr (e : Except Unit (List (String × Val))) (d : List (String × Val)) :
    List (String × Val) :=
  match e with
  | .ok m => m
  | .error _ => d

/-! ## `OpenAlexClient.list_all_resources`

The HTTP layer is abstracted into a page oracle `fetch`:
`fetch p` models `self.list_resources(..., page=p, per_page=per_page)`,
returning the page's record list or raising `OpenAlexClientError`
(`.error`).  `total` models the result of `get_total_count` (which
itself returns 0 on a transport error).  The model also returns the
trace of page numbers actually requested.  With `per_page = 0` the
Python code would raise `ZeroDivisionError`; the theorems assume
`0 < perPage`. -/

/-- The `for page in range(1, total_pages + 1)` loop: a failing or empty
page breaks out, keeping accumulated records. -/
def fetchLoop {α : Type} (fetch : Nat → Except Unit (List α)) :
    List Nat → List Nat × List α
  | [] => ([], [])
  | p :: rest =>
    match fetch p with
    | .error _ => ([p], [])
    | .ok [] => ([p], [])
    | .ok recs =>
      let (qs, out) := fetchLoop fetch rest
      (p :: qs, recs ++ out)

/-- `OpenAlexClient.list_all_resources` (trace of requested pages,
accumulated records). -/
def listAllResources {α : Type} (total perPage : Nat)
    (fetch : Nat → Except Unit (List α)) : List Nat × List α :=
  if total = 0 then ([], [])
  else fetchLoop fetch (List.range' 1 ((total + perPage - 1) / perPage))

/-! ## Association-list lemmas -/

theorem pyGet_setKey_self {β : Type} (p : List (String × β)) (k : String) (v : β) :
    pyGet (setKey p k v) k = some v := by
  induction p with
  | nil => simp [setKey, pyGet]
  | cons kv rest ih =>
    obtain ⟨k', v'⟩ := kv
    by_cases h : k' = k
    · simp [setKey, h, pyGet]
    · simp [setKey, h, pyGet, ih]

theorem pyGet_setKey_ne {β : Type} (p : List (String × β)) (k k' : String) (v : β)
    (h : k' ≠ k) : pyGet (setKey p k v) k' = pyGet p k' := by
  have h' : ¬k = k' := fun hh => h hh.symm
  induction p with
  | nil => simp [setKey, pyGet, h']
  | cons kv rest ih =>
    obtain ⟨k'', v''⟩ := kv
    by_cases h2 : k'' = k
    · subst h2
      simp [setKey, pyGet, h']
    · simp only [setKey, if_neg h2, pyGet]
      by_cases h3 : k'' = k'
      · simp [h3]
      · simp [h3, ih]

theorem mem_setKey {β : Type} {p : List (String × β)} {k : String} {v : β}
    {kv : String × β} (h : kv ∈ setKey p k v) : kv.1 = k ∨ kv ∈ p := by
  induction p with
  | nil =>
    simp only [setKey, List.mem_singleton] at h
    exact Or.inl (by rw [h])
  | cons kv' rest ih =>
    obtain ⟨k', v'⟩ := kv'
    by_cases h2 : k' = k
    · simp only [setKey, if_pos h2] at h
      rcases List.mem_cons.mp h with h | h
      · exact Or.inl (by rw [h])
      · right; right; exact h
    · simp only [setKey, if_neg h2] at h
      rcases List.mem_cons.mp h with h | h
      · right; exact h ▸ List.mem_cons_self _ _
      · rcases ih h with h | h
        · left; exact h
        · right; right; exact h

theorem mem_keys_setKey {β : Type} (p : List (String × β)) (k n : String) (v : β) :
    n ∈ (setKey p k v).map Prod.fst ↔ n = k ∨ n ∈ p.map Prod.fst := by
  induction p with
  | nil => simp [setKey]
  | cons kv rest ih =>
    obtain ⟨k', v'⟩ := kv
    by_cases h2 : k' = k
    · subst h2
      simp [setKey]
    · simp only [setKey, if_neg h2, List.map_cons, List.mem_cons, ih]
      tauto

theorem nodup_keys_setKey {β : Type} {p : List (String × β)} (k : String) (v : β)
    (h : (p.map Prod.fst).Nodup) : ((setKey p k v).map Prod.fst).Nodup := by
  induction p with
  | nil => simp [setKey]
  | cons kv rest ih =>
    obtain ⟨k', v'⟩ := kv
    simp only [List.map_cons, List.nodup_cons] at h
    by_cases h2 : k' = k
    · subst h2
      simpa [setKey] using h
    · simp only [setKey, if_neg h2, List.map_cons, List.nodup_cons]
      refine ⟨fun hc => ?_, ih h.2⟩
      rcases (mem_keys_setKey rest k k' v).mp hc with hc | hc
      · exact h2 hc
      · exact h.1 hc

theorem pyGet_mem {β : Type} {fs : List (String × β)} {k : String} {v : β}
    (h : pyGet fs k = some v) : (k, v) ∈ fs := by
  induction fs with
  | nil => simp [pyGet] at h
  | cons kv rest ih =>
    obtain ⟨k', v'⟩ := kv
    by_cases h2 : k' = k
    · simp only [pyGet, if_pos h2] at h
      injection h with h
      subst h; subst h2
      exact List.mem_cons_self _ _
    · simp only [pyGet, if_neg h2] at h
      exact List.mem_cons_of_mem _ (ih h)

theorem pyGet_eq_some_of_mem {β : Type} {fs : List (String × β)} {k : String} {v : β}
    (hmem : (k, v) ∈ fs) (hnd : (fs.map Prod.fst).Nodup) : pyGet fs k = some v := by
  induction fs with
  | nil => simp at hmem
  | cons kv rest ih =>
    obtain ⟨k', v'⟩ := kv
    simp only [List.map_cons, List.nodup_cons] at hnd
    rcases List.mem_cons.mp hmem with h | h
    · injection h with h1 h2
      subst h1; subst h2
      simp [pyGet]
    · have hne : k' ≠ k := by
        rintro rfl
        exact hnd.1 (List.mem_map_of_mem Prod.fst h)
      simp only [pyGet, if_neg hne]
      exact ih h hnd.2

theorem pyGet_eq_none_iff {β : Type} (fs : List (String × β)) (k : String) :
    pyGet fs k = none ↔ k ∉ fs.map Prod.fst := by
  induction fs with
  | nil => simp [pyGet]
  | cons kv rest ih =>
    obtain ⟨k', v'⟩ := kv
    simp only [pyGet, List.map_cons, List.mem_cons]
    by_cases h2 : k' = k
    · subst h2; simp
    · have h2' : ¬k = k' := fun hh => h2 hh.symm
      simp only [if_neg h2, ih]
      constructor
      · intro h hc
        rcases hc with hc | hc
        · exact h2' hc
        · exact h hc
      · intro h hc
        exact h (Or.inr hc)

/-! ## Lemmas about the `\[\d+\]` scanning -/

theorem dropIndexAt_none_of_ne {c : Char} (cs : List Char) (h : c ≠ '[') :
    dropIndexAt (c :: cs) = none := by
  simp [dropIndexAt, h]

theorem stripIdx_of_not_containsIdx {cs : List Char} (h : containsIdx cs = false) :
    stripIdx cs = cs := by
  induction cs with
  | nil => rfl
  | cons c cs ih =>
    cases hd : dropIndexAt (c :: cs) with
    | some rest =>
      rw [containsIdx, hd] at h
      simp at h
    | none =>
      rw [containsIdx, hd] at h
      simp only [Option.isSome_none, Bool.false_or] at h
      rw [stripIdx_cons, hd, ih h]

theorem stripIdx_clean_append (p t : List Char) (h : ∀ c ∈ p, c ≠ '[') :
    stripIdx (p ++ t) = p ++ stripIdx t := by
  induction p with
  | nil => rfl
  | cons c p ih =>
    have hc : c ≠ '[' := h c (List.mem_cons_self _ _)
    rw [List.cons_append, stripIdx_cons, dropIndexAt_none_of_ne _ hc,
      ih (fun c hc => h c (List.mem_cons_of_mem _ hc))]
    rfl

theorem takeWhile_all_append {p : Char → Bool} {l₁ : List Char} (x : Char) (l₂ : List Char)
    (h1 : ∀ a ∈ l₁, p a) (h2 : p x = false) :
    (l₁ ++ x :: l₂).takeWhile p = l₁ ∧ (l₁ ++ x :: l₂).dropWhile p = x :: l₂ := by
  induction l₁ with
  | nil => simp [List.takeWhile_cons, List.dropWhile_cons, h2]
  | cons a l₁ ih =>
    have ha : p a := h1 a (List.mem_cons_self _ _)
    obtain ⟨iht, ihd⟩ := ih (fun a h => h1 a (List.mem_cons_of_mem _ h))
    simp [List.takeWhile_cons, List.dropWhile_cons, ha, iht, ihd]

theorem dropIndexAt_indexed (ds r : List Char) (hne : ds ≠ []) (hd : ∀ c ∈ ds, c.isDigit) :
    dropIndexAt ('[' :: (ds ++ ']' :: r)) = some r := by
  obtain ⟨ht, hdw⟩ := takeWhile_all_append (p := (·.isDigit)) ']' r hd (by decide)
  simp [dropIndexAt, ht, hdw, hne, closeBracketAt]

theorem stripIdx_indexed (p ds r : List Char) (hp : ∀ c ∈ p, c ≠ '[')
    (hne : ds ≠ []) (hd : ∀ c ∈ ds, c.isDigit) :
    stripIdx (p ++ '[' :: (ds ++ ']' :: r)) = p ++ stripIdx r := by
  rw [stripIdx_clean_append _ _ hp, stripIdx_cons, dropIndexAt_indexed ds r hne hd]

theorem containsIdx_cons (c : Char) (cs : List Char) :
    containsIdx (c :: cs) = ((dropIndexAt (c :: cs)).isSome || containsIdx cs) := rfl

theorem containsIdx_append_left (p cs : List Char) (h : containsIdx cs = true) :
    containsIdx (p ++ cs) = true := by
  induction p with
  | nil => exact h
  | cons c p ih =>
    rw [List.cons_append, containsIdx_cons, ih, Bool.or_true]

theorem containsIdx_indexed (p ds r : List Char) (hne : ds ≠ []) (hd : ∀ c ∈ ds, c.isDigit) :
    containsIdx (p ++ '[' :: (ds ++ ']' :: r)) = true := by
  apply containsIdx_append_left
  rw [containsIdx_cons, dropIndexAt_indexed ds r hne hd]
  rfl

theorem dropIndexAt_some_decomp {c : Char} {cs rest : List Char}
    (h : dropIndexAt (c :: cs) = some rest) :
    c = '[' ∧ ∃ ds, cs = ds ++ ']' :: rest ∧ ds ≠ [] ∧ ∀ d ∈ ds, d.isDigit := by
  by_cases hc : c = '['
  · subst hc
    simp only [dropIndexAt, if_pos rfl] at h
    by_cases he : (cs.takeWhile (·.isDigit)).isEmpty
    · rw [if_pos he] at h; exact absurd h (by simp)
    · rw [if_neg he] at h
      cases hdw : cs.dropWhile (·.isDigit) with
      | nil => rw [hdw] at h; exact absurd h (by simp [closeBracketAt])
      | cons x rest2 =>
        rw [hdw] at h
        simp only [closeBracketAt] at h
        by_cases hx : x = ']'
        · rw [if_pos hx] at h
          injection h with h
          subst h
          subst hx
          refine ⟨rfl, cs.takeWhile (·.isDigit), ?_, by simpa using he,
            fun d hd => List.mem_takeWhile_imp hd⟩
          conv_lhs => rw [← List.takeWhile_append_dropWhile (p := (·.isDigit)) (l := cs)]
          rw [hdw]
        · rw [if_neg hx] at h; exact absurd h (by simp)
  · rw [dropIndexAt_none_of_ne _ hc] at h
    exact absurd h (by simp)

/-- A "clean" needle contains no bracket and no digit, so a removed
`[digits]` group cannot overlap any of its occurrences. -/
abbrev CleanNeedle (needle : List Char) : Prop :=
  ∀ c ∈ needle, c ≠ '[' ∧ c ≠ ']' ∧ c.isDigit = false

theorem infix_peel {needle : List Char} (hclean : CleanNeedle needle) (hne : needle ≠ [])
    {x : Char} {xs : List Char} (h : needle <:+: x :: xs)
    (hx : x = '[' ∨ x = ']' ∨ x.isDigit = true) : needle <:+: xs := by
  obtain ⟨s, t, hst⟩ := h
  cases s with
  | nil =>
    exfalso
    cases needle with
    | nil => exact hne rfl
    | cons n ns =>
      have hnx : n = x := by
        have := congrArg List.head? hst
        simpa using this
      obtain ⟨h1, h2, h3⟩ := hclean n (List.mem_cons_self _ _)
      rcases hx with hx | hx | hx
      · exact h1 (hnx.trans hx)
      · exact h2 (hnx.trans hx)
      · rw [hnx, hx] at h3
        cases h3
  | cons y s' =>
    simp only [List.cons_append, List.cons.injEq] at hst
    exact ⟨s', t, hst.2⟩

theorem infix_drop_pre {needle : List Char} (hclean : CleanNeedle needle) (hne : needle ≠ []) :
    ∀ (pre xs : List Char), (∀ x ∈ pre, x = '[' ∨ x = ']' ∨ x.isDigit = true) →
      needle <:+: pre ++ xs → needle <:+: xs := by
  intro pre
  induction pre with
  | nil => intro xs _ h; exact h
  | cons x pre ih =>
    intro xs hall h
    refine ih xs (fun a ha => hall a (List.mem_cons_of_mem _ ha)) ?_
    exact infix_peel hclean hne h (hall x (List.mem_cons_self _ _))

theorem infix_stripIdx_fuel {needle : List Char} (hclean : CleanNeedle needle)
    (hne : needle ≠ []) :
    ∀ (n : Nat) (cs : List Char), cs.length ≤ n → needle <:+: cs →
      needle <:+: stripIdx cs := by
  intro n
  induction n with
  | zero =>
    intro cs hlen h
    have : cs = [] := List.length_eq_zero.mp (Nat.le_zero.mp hlen)
    subst this
    exact absurd (List.infix_nil.mp h) hne
  | succ n ih =>
    intro cs hlen h
    cases cs with
    | nil => exact absurd (List.infix_nil.mp h) hne
    | cons c cs' =>
      obtain ⟨s, t, hst⟩ := h
      cases s with
      | nil =>
        simp only [List.nil_append] at hst
        have hcl : ∀ c ∈ needle, c ≠ '[' := fun c hc => (hclean c hc).1
        rw [← hst, stripIdx_clean_append needle t hcl]
        exact ⟨[], stripIdx t, by simp⟩
      | cons y s' =>
        simp only [List.cons_append, List.cons.injEq] at hst
        have hinf' : needle <:+: cs' := ⟨s', t, hst.2⟩
        simp only [List.length_cons, Nat.succ_le_succ_iff] at hlen
        rw [stripIdx_cons]
        cases hd : dropIndexAt (c :: cs') with
        | none => exact List.infix_cons (ih cs' hlen hinf')
        | some rest =>
          obtain ⟨-, ds, hcs, hdne, hdd⟩ := dropIndexAt_some_decomp hd
          subst hcs
          have hrest : needle <:+: rest := by
            refine infix_drop_pre hclean hne (ds ++ [']']) rest ?_ (by simpa using hinf')
            intro x hx
            rcases List.mem_append.mp hx with hx | hx
            · right; right; exact hdd x hx
            · right; left; simpa using hx
          refine ih rest ?_ hrest
          have := dropIndexAt_length hd
          simp only [List.length_cons] at this
          omega

theorem infix_stripIdx {needle cs : List Char} (hclean : CleanNeedle needle)
    (hne : needle ≠ []) (h : needle <:+: cs) : needle <:+: stripIdx cs :=
  infix_stripIdx_fuel hclean hne cs.length cs (Nat.le_refl _) h

/-! String-level corollaries. -/

theorem string_mk_data (s : String) : (⟨s.data⟩ : String) = s := rfl

theorem stripS_of_not_contains {k : String} (h : containsIndexS k = false) :
    stripS k = k := by
  have : stripIdx k.data = k.data := stripIdx_of_not_containsIdx h
  show (⟨stripIdx k.data⟩ : String) = k
  rw [this]

theorem stripS_clean_append (p x : String) (h : ∀ c ∈ p.data, c ≠ '[') :
    stripS (p ++ x) = p ++ stripS x := by
  show (⟨stripIdx (p ++ x).data⟩ : String) = p ++ (⟨stripIdx x.data⟩ : String)
  have hd : (p ++ x).data = p.data ++ x.data := String.data_append p x
  apply String.ext
  simp only [hd, stripIdx_clean_append p.data x.data h, String.data_append]

theorem strContains_inf {hay needle : String} (h : strContains hay needle = true) :
    needle.data <:+: hay.data := of_decide_eq_true h

/-! ## Characterisation of `merge_and_deduplicate`

The grouping loop is described per normalized name by a single fold
(`accValsFrom`): an indexed key contributing to the name inserts its
value into the (duplicate-free) value set, a plain key of that name
resets the set to a fresh singleton. -/

/-- Per-name accumulator semantics of the grouping loop. -/
def accValsFrom (data : List (String × Val)) (n : String) (init : Option (List Val)) :
    Option (List Val) :=
  data.foldl
    (fun acc kv =>
      if stripS kv.1 = n then
        if containsIndexS kv.1 then some (insertDedup (acc.getD []) kv.2) else some [kv.2]
      else acc)
    init

theorem pyGet_addTo_self (st : List (String × List Val)) (n : String) (v : Val) :
    pyGet (addTo st n v) n = some (insertDedup ((pyGet st n).getD []) v) := by
  induction st with
  | nil => simp [addTo, pyGet, insertDedup]
  | cons kv rest ih =>
    obtain ⟨k, vs⟩ := kv
    by_cases h : k = n
    · simp [addTo, h, pyGet]
    · simp [addTo, h, pyGet, ih]

theorem pyGet_addTo_ne (st : List (String × List Val)) (n n' : String) (v : Val)
    (h : n' ≠ n) : pyGet (addTo st n v) n' = pyGet st n' := by
  have h' : ¬n = n' := fun hh => h hh.symm
  induction st with
  | nil => simp [addTo, pyGet, h']
  | cons kv rest ih =>
    obtain ⟨k, vs⟩ := kv
    by_cases h2 : k = n
    · subst h2
      simp [addTo, pyGet, h']
    · simp only [addTo, if_neg h2, pyGet]
      by_cases h3 : k = n'
      · simp [h3]
      · simp [h3, ih]

theorem pyGet_setSingleton_self (st : List (String × List Val)) (n : String) (v : Val) :
    pyGet (setSingleton st n v) n = some [v] := by
  induction st with
  | nil => simp [setSingleton, pyGet]
  | cons kv rest ih =>
    obtain ⟨k, vs⟩ := kv
    by_cases h : k = n
    · simp [setSingleton, h, pyGet]
    · simp [setSingleton, h, pyGet, ih]

theorem pyGet_setSingleton_ne (st : List (String × List Val)) (n n' : String) (v : Val)
    (h : n' ≠ n) : pyGet (setSingleton st n v) n' = pyGet st n' := by
  have h' : ¬n = n' := fun hh => h hh.symm
  induction st with
  | nil => simp [setSingleton, pyGet, h']
  | cons kv rest ih =>
    obtain ⟨k, vs⟩ := kv
    by_cases h2 : k = n
    · subst h2
      simp [setSingleton, pyGet, h']
    · simp only [setSingleton, if_neg h2, pyGet]
      by_cases h3 : k = n'
      · simp [h3]
      · simp [h3, ih]

theorem buildMerged_lookup :
    ∀ (data : List (String × Val)) (st st' : List (String × List Val)),
      buildMerged data st = .ok st' → ∀ n, pyGet st' n = accValsFrom data n (pyGet st n) := by
  intro data
  induction data with
  | nil =>
    intro st st' h n
    simp only [buildMerged] at h
    injection h with h
    subst h
    rfl
  | cons kv rest ih =>
    intro st st' h n
    obtain ⟨k, v⟩ := kv
    simp only [buildMerged] at h
    by_cases hh : v.hashable
    · rw [if_pos hh] at h
      by_cases hidx : containsIndexS k
      · rw [if_pos hidx] at h
        rw [ih _ _ h n]
        simp only [accValsFrom, List.foldl_cons]
        by_cases hn : stripS k = n
        · rw [if_pos hn, if_pos hidx, hn, pyGet_addTo_self]
        · rw [if_neg hn, pyGet_addTo_ne _ _ _ _ (fun hc => hn hc.symm)]
      · rw [if_neg hidx] at h
        rw [ih _ _ h n]
        simp only [accValsFrom, List.foldl_cons]
        have hk : stripS k = k :=
          stripS_of_not_contains (Bool.not_eq_true _ ▸ hidx)
        by_cases hn : stripS k = n
        · rw [if_pos hn, if_neg hidx]
          rw [hk] at hn
          rw [hn, pyGet_setSingleton_self]
        · rw [if_neg hn]
          rw [hk] at hn
          rw [pyGet_setSingleton_ne _ _ _ _ (fun hc => hn hc.symm)]
    · rw [if_neg hh] at h
      exact absurd h (by simp)

theorem finalizeAll_lookup :
    ∀ (st : List (String × List Val)) (m : List (String × Val)),
      finalizeAll st = .ok m → ∀ n,
        (pyGet st n = none → pyGet m n = none) ∧
        (∀ vs, pyGet st n = some vs →
          ∃ w, finalizeEntry vs = .ok w ∧ pyGet m n = some w) := by
  intro st
  induction st with
  | nil =>
    intro m h n
    simp only [finalizeAll] at h
    injection h with h
    subst h
    exact ⟨fun _ => rfl, fun vs hvs => by simp [pyGet] at hvs⟩
  | cons kv rest ih =>
    intro m h n
    obtain ⟨k, vs⟩ := kv
    simp only [finalizeAll] at h
    cases hfe : finalizeEntry vs with
    | error e => rw [hfe] at h; exact absurd h (by simp)
    | ok v =>
      rw [hfe] at h
      cases hfa : finalizeAll rest with
      | error e => rw [hfa] at h; exact absurd h (by simp)
      | ok m' =>
        rw [hfa] at h
        injection h with h
        subst h
        by_cases hk : k = n
        · subst hk
          refine ⟨fun hc => by simp [pyGet] at hc, fun vs' hvs' => ?_⟩
          simp only [pyGet, if_pos rfl] at hvs' ⊢
          injection hvs' with hvs'
          subst hvs'
          exact ⟨v, hfe, rfl⟩
        · simp only [pyGet, if_neg hk]
          exact ih m' hfa n

theorem mergeLookup {data m : List (String × Val)}
    (h : mergeAndDeduplicate data = .ok m) (n : String) :
    (accValsFrom data n none = none → pyGet m n = none) ∧
    (∀ vs, accValsFrom data n none = some vs →
      ∃ w, finalizeEntry vs = .ok w ∧ pyGet m n = some w) := by
  simp only [mergeAndDeduplicate] at h
  cases hb : buildMerged data [] with
  | error e => rw [hb] at h; exact absurd h (by simp)
  | ok st =>
    rw [hb] at h
    have hlu := buildMerged_lookup data [] st hb n
    have hfl := finalizeAll_lookup st m h n
    constructor
    · intro hacc
      exact hfl.1 (by rw [hlu]; exact hacc)
    · intro vs hacc
      exact hfl.2 vs (by rw [hlu]; exact hacc)

/-! Success conditions, key provenance and uniqueness for the merge. -/

theorem mem_insertDedup {acc : List Val} {v w : Val} (h : w ∈ insertDedup acc v) :
    w ∈ acc ∨ w = v := by
  unfold insertDedup at h
  split at h
  · exact Or.inl h
  · rcases List.mem_append.mp h with h | h
    · exact Or.inl h
    · exact Or.inr (List.mem_singleton.mp h)

theorem insertDedup_ne_nil (acc : List Val) (v : Val) : insertDedup acc v ≠ [] := by
  unfold insertDedup
  split
  next h =>
    intro hc
    subst hc
    simp at h
  · simp

theorem mem_keys_addTo (st : List (String × List Val)) (n n' : String) (v : Val) :
    n' ∈ (addTo st n v).map Prod.fst ↔ n' = n ∨ n' ∈ st.map Prod.fst := by
  induction st with
  | nil => simp [addTo]
  | cons kv rest ih =>
    obtain ⟨k, vs⟩ := kv
    by_cases h : k = n
    · subst h
      simp [addTo]
    · simp only [addTo, if_neg h, List.map_cons, List.mem_cons, ih]
      tauto

theorem mem_keys_setSingleton (st : List (String × List Val)) (n n' : String) (v : Val) :
    n' ∈ (setSingleton st n v).map Prod.fst ↔ n' = n ∨ n' ∈ st.map Prod.fst := by
  induction st with
  | nil => simp [setSingleton]
  | cons kv rest ih =>
    obtain ⟨k, vs⟩ := kv
    by_cases h : k = n
    · subst h
      simp [setSingleton]
    · simp only [setSingleton, if_neg h, List.map_cons, List.mem_cons, ih]
      tauto

theorem nodup_keys_addTo {st : List (String × List Val)} (n : String) (v : Val)
    (h : (st.map Prod.fst).Nodup) : ((addTo st n v).map Prod.fst).Nodup := by
  induction st with
  | nil => simp [addTo]
  | cons kv rest ih =>
    obtain ⟨k, vs⟩ := kv
    simp only [List.map_cons, List.nodup_cons] at h
    by_cases h2 : k = n
    · subst h2
      simpa [addTo] using h
    · simp only [addTo, if_neg h2, List.map_cons, List.nodup_cons]
      refine ⟨fun hc => ?_, ih h.2⟩
      rcases (mem_keys_addTo rest n k v).mp hc with hc | hc
      · exact h2 hc
      · exact h.1 hc

theorem nodup_keys_setSingleton {st : List (String × List Val)} (n : String) (v : Val)
    (h : (st.map Prod.fst).Nodup) : ((setSingleton st n v).map Prod.fst).Nodup := by
  induction st with
  | nil => simp [setSingleton]
  | cons kv rest ih =>
    obtain ⟨k, vs⟩ := kv
    simp only [List.map_cons, List.nodup_cons] at h
    by_cases h2 : k = n
    · subst h2
      simpa [setSingleton] using h
    · simp only [setSingleton, if_neg h2, List.map_cons, List.nodup_cons]
      refine ⟨fun hc => ?_, ih h.2⟩
      rcases (mem_keys_setSingleton rest n k v).mp hc with hc | hc
      · exact h2 hc
      · exact h.1 hc

theorem buildMerged_nodup :
    ∀ (data : List (String × Val)) (st st' : List (String × List Val)),
      buildMerged data st = .ok st' → (st.map Prod.fst).Nodup →
      (st'.map Prod.fst).Nodup := by
  intro data
  induction data with
  | nil =>
    intro st st' h hnd
    simp only [buildMerged] at h
    injection h with h
    subst h
    exact hnd
  | cons kv rest ih =>
    intro st st' h hnd
    obtain ⟨k, v⟩ := kv
    simp only [buildMerged] at h
    by_cases hh : v.hashable
    · rw [if_pos hh] at h
      by_cases hidx : containsIndexS k
      · rw [if_pos hidx] at h
        exact ih _ _ h (nodup_keys_addTo _ _ hnd)
      · rw [if_neg hidx] at h
        exact ih _ _ h (nodup_keys_setSingleton _ _ hnd)
    · rw [if_neg hh] at h
      exact absurd h (by simp)

theorem buildMerged_keys :
    ∀ (data : List (String × Val)) (st st' : List (String × List Val)),
      buildMerged data st = .ok st' → ∀ n ∈ st'.map Prod.fst,
        n ∈ st.map Prod.fst ∨ ∃ kv ∈ data, n = stripS kv.1 := by
  intro data
  induction data with
  | nil =>
    intro st st' h n hn
    simp only [buildMerged] at h
    injection h with h
    subst h
    exact Or.inl hn
  | cons kv rest ih =>
    intro st st' h n hn
    obtain ⟨k, v⟩ := kv
    simp only [buildMerged] at h
    by_cases hh : v.hashable
    · rw [if_pos hh] at h
      by_cases hidx : containsIndexS k
      · rw [if_pos hidx] at h
        rcases ih _ _ h n hn with hc | ⟨kv', hkv', hkv'2⟩
        · rcases (mem_keys_addTo st (stripS k) n v).mp hc with hc | hc
          · exact Or.inr ⟨(k, v), List.mem_cons_self _ _, hc⟩
          · exact Or.inl hc
        · exact Or.inr ⟨kv', List.mem_cons_of_mem _ hkv', hkv'2⟩
      · rw [if_neg hidx] at h
        rcases ih _ _ h n hn with hc | ⟨kv', hkv', hkv'2⟩
        · rcases (mem_keys_setSingleton st k n v).mp hc with hc | hc
          · refine Or.inr ⟨(k, v), List.mem_cons_self _ _, ?_⟩
            rw [stripS_of_not_contains (Bool.not_eq_true _ ▸ hidx)]
            exact hc
          · exact Or.inl hc
        · exact Or.inr ⟨kv', List.mem_cons_of_mem _ hkv', hkv'2⟩
    · rw [if_neg hh] at h
      exact absurd h (by simp)

theorem buildMerged_ok (data : List (String × Val)) (st : List (String × List Val))
    (h : ∀ kv ∈ data, kv.2.hashable = true) :
    ∃ st', buildMerged data st = .ok st' := by
  induction data generalizing st with
  | nil => exact ⟨st, rfl⟩
  | cons kv rest ih =>
    obtain ⟨k, v⟩ := kv
    have hh : v.hashable = true := h (k, v) (List.mem_cons_self _ _)
    have hrest : ∀ kv ∈ rest, kv.2.hashable = true :=
      fun kv hkv => h kv (List.mem_cons_of_mem _ hkv)
    simp only [buildMerged, hh, if_pos]
    by_cases hidx : containsIndexS k
    · rw [if_pos hidx]
      exact ih _ hrest
    · rw [if_neg hidx]
      exact ih _ hrest

theorem finalizeAll_ok (st : List (String × List Val))
    (h : ∀ e ∈ st, ∃ w, finalizeEntry e.2 = .ok w) :
    ∃ m, finalizeAll st = .ok m := by
  induction st with
  | nil => exact ⟨[], rfl⟩
  | cons kv rest ih =>
    obtain ⟨k, vs⟩ := kv
    obtain ⟨w, hw⟩ := h (k, vs) (List.mem_cons_self _ _)
    obtain ⟨m', hm'⟩ := ih (fun e he => h e (List.mem_cons_of_mem _ he))
    exact ⟨(k, w) :: m', by simp only [finalizeAll, hw, hm']⟩

theorem finalizeAll_keys :
    ∀ (st : List (String × List Val)) (m : List (String × Val)),
      finalizeAll st = .ok m → m.map Prod.fst = st.map Prod.fst := by
  intro st
  induction st with
  | nil =>
    intro m h
    simp only [finalizeAll] at h
    injection h with h
    subst h
    rfl
  | cons kv rest ih =>
    intro m h
    obtain ⟨k, vs⟩ := kv
    simp only [finalizeAll] at h
    cases hfe : finalizeEntry vs with
    | error e => rw [hfe] at h; exact absurd h (by simp)
    | ok v =>
      rw [hfe] at h
      cases hfa : finalizeAll rest with
      | error e => rw [hfa] at h; exact absurd h (by simp)
      | ok m' =>
        rw [hfa] at h
        injection h with h
        subst h
        simp [ih m' hfa]

/-! Spec-side descriptions of the merged value sets. -/

/-- The values of all raw keys normalizing to `n`, in encounter order. -/
def contribVals (data : List (String × Val)) (n : String) : List Val :=
  (data.filter (fun kv => stripS kv.1 = n)).map Prod.snd

/-- Deduplication keeping the first occurrence. -/
def dedupList (l : List Val) : List Val := l.foldl insertDedup []

theorem contribVals_cons (kv : String × Val) (rest : List (String × Val)) (n : String) :
    contribVals (kv :: rest) n =
      if stripS kv.1 = n then kv.2 :: contribVals rest n else contribVals rest n := by
  by_cases hg : stripS kv.1 = n
  · simp [contribVals, List.filter_cons, hg]
  · simp [contribVals, List.filter_cons, hg]

theorem accValsFrom_cons (kv : String × Val) (rest : List (String × Val)) (n : String)
    (init : Option (List Val)) :
    accValsFrom (kv :: rest) n init =
      accValsFrom rest n
        (if stripS kv.1 = n then
          if containsIndexS kv.1 then some (insertDedup (init.getD []) kv.2) else some [kv.2]
        else init) := rfl

theorem accValsFrom_no_contrib {data : List (String × Val)} {n : String}
    (h : contribVals data n = []) (init : Option (List Val)) :
    accValsFrom data n init = init := by
  induction data generalizing init with
  | nil => rfl
  | cons kv rest ih =>
    rw [contribVals_cons] at h
    by_cases hg : stripS kv.1 = n
    · rw [if_pos hg] at h; exact absurd h (by simp)
    · rw [if_neg hg] at h
      rw [accValsFrom_cons, if_neg hg]
      exact ih h init

theorem accValsFrom_isSome (data : List (String × Val)) (n : String) (a : List Val) :
    ∃ b, accValsFrom data n (some a) = some b := by
  induction data generalizing a with
  | nil => exact ⟨a, rfl⟩
  | cons kv rest ih =>
    rw [accValsFrom_cons]
    by_cases hg : stripS kv.1 = n
    · rw [if_pos hg]
      by_cases hidx : containsIndexS kv.1
      · rw [if_pos hidx]; exact ih _
      · rw [if_neg hidx]; exact ih _
    · rw [if_neg hg]; exact ih a

theorem accValsFrom_none_iff (data : List (String × Val)) (n : String) :
    accValsFrom data n none = none ↔ contribVals data n = [] := by
  induction data with
  | nil => simp [accValsFrom, contribVals]
  | cons kv rest ih =>
    rw [contribVals_cons, accValsFrom_cons]
    by_cases hg : stripS kv.1 = n
    · rw [if_pos hg, if_pos hg]
      constructor
      · intro h
        exfalso
        by_cases hidx : containsIndexS kv.1
        · rw [if_pos hidx] at h
          obtain ⟨b, hb⟩ := accValsFrom_isSome rest n (insertDedup (Option.getD none []) kv.2)
          rw [hb] at h
          exact absurd h (by simp)
        · rw [if_neg hidx] at h
          obtain ⟨b, hb⟩ := accValsFrom_isSome rest n [kv.2]
          rw [hb] at h
          exact absurd h (by simp)
      · intro h
        exact absurd h (by simp)
    · rw [if_neg hg, if_neg hg]
      exact ih

theorem accValsFrom_indexed (data : List (String × Val)) (n : String)
    (hall : ∀ kv ∈ data, stripS kv.1 = n → containsIndexS kv.1 = true) :
    ∀ a, accValsFrom data n (some a) =
      some (List.foldl insertDedup a (contribVals data n)) := by
  induction data with
  | nil => intro a; rfl
  | cons kv rest ih =>
    intro a
    have hall' : ∀ kv ∈ rest, stripS kv.1 = n → containsIndexS kv.1 = true :=
      fun kv hkv => hall kv (List.mem_cons_of_mem _ hkv)
    rw [contribVals_cons, accValsFrom_cons]
    by_cases hg : stripS kv.1 = n
    · rw [if_pos hg, if_pos hg, if_pos (hall kv (List.mem_cons_self _ _) hg)]
      simp only [Option.getD_some, List.foldl_cons]
      exact ih hall' _
    · rw [if_neg hg, if_neg hg]
      exact ih hall' a

theorem accValsFrom_indexed_none (data : List (String × Val)) (n : String)
    (hall : ∀ kv ∈ data, stripS kv.1 = n → containsIndexS kv.1 = true)
    (hne : contribVals data n ≠ []) :
    accValsFrom data n none = some (dedupList (contribVals data n)) := by
  induction data with
  | nil => exact absurd rfl hne
  | cons kv rest ih =>
    have hall' : ∀ kv ∈ rest, stripS kv.1 = n → containsIndexS kv.1 = true :=
      fun kv hkv => hall kv (List.mem_cons_of_mem _ hkv)
    rw [accValsFrom_cons]
    by_cases hg : stripS kv.1 = n
    · rw [if_pos hg, if_pos (hall kv (List.mem_cons_self _ _) hg)]
      rw [contribVals_cons, if_pos hg]
      simp only [Option.getD_none]
      rw [accValsFrom_indexed rest n hall' (insertDedup [] kv.2)]
      rfl
    · rw [if_neg hg]
      rw [contribVals_cons, if_neg hg] at hne ⊢
      exact ih hall' hne

theorem accValsFrom_plain_single (data : List (String × Val)) (n : String) (v : Val)
    (hfilter : data.filter (fun kv => stripS kv.1 = n) = [(n, v)]) :
    accValsFrom data n none = some [v] := by
  induction data with
  | nil => simp at hfilter
  | cons kv rest ih =>
    simp only [List.filter_cons] at hfilter
    rw [accValsFrom_cons]
    by_cases hg : stripS kv.1 = n
    · rw [if_pos (by simpa using hg)] at hfilter
      injection hfilter with h1 h2
      rw [if_pos hg]
      subst h1
      have hrest : contribVals rest n = [] := by
        simp [contribVals, h2]
      by_cases hidx : containsIndexS (n, v).1
      · rw [if_pos hidx]
        rw [accValsFrom_no_contrib hrest]
        rfl
      · rw [if_neg hidx]
        exact accValsFrom_no_contrib hrest _
    · rw [if_neg (by simpa using hg)] at hfilter
      rw [if_neg hg]
      exact ih hfilter

theorem filter_contrib_eq_single {data : List (String × Val)} {n : String} {v : Val}
    (hmem : (n, v) ∈ data) (hnd : (data.map Prod.fst).Nodup)
    (honly : ∀ kv ∈ data, stripS kv.1 = n → kv.1 = n) (hn : stripS n = n) :
    data.filter (fun kv => stripS kv.1 = n) = [(n, v)] := by
  induction data with
  | nil => simp at hmem
  | cons kv rest ih =>
    obtain ⟨k, w⟩ := kv
    simp only [List.map_cons, List.nodup_cons] at hnd
    by_cases hk : k = n
    · subst hk
      have hvw : w = v := by
        rcases List.mem_cons.mp hmem with h | h
        · injection h with _ h; exact h.symm
        · exact absurd (List.mem_map_of_mem Prod.fst h) hnd.1
      subst hvw
      have hrest : rest.filter (fun kv => stripS kv.1 = k) = [] := by
        rw [List.filter_eq_nil_iff]
        intro kv hkv hc
        have := honly kv (List.mem_cons_of_mem _ hkv) (by simpa using hc)
        exact hnd.1 (this ▸ List.mem_map_of_mem Prod.fst hkv)
      simp only [List.filter_cons, hn, hrest]
      simp
    · have hg : ¬stripS k = n := fun hc => hk (honly (k, w) (List.mem_cons_self _ _) hc)
      simp only [List.filter_cons]
      rw [if_neg (by simpa using hg)]
      have hmem' : (n, v) ∈ rest := by
        rcases List.mem_cons.mp hmem with h | h
        · injection h with h1 _; exact absurd h1.symm hk
        · exact h
      exact ih hmem' hnd.2 (fun kv hkv => honly kv (List.mem_cons_of_mem _ hkv))

theorem accValsFrom_provenance :
    ∀ (data : List (String × Val)) (n : String) (init : Option (List Val)) (vs : List Val),
      accValsFrom data n init = some vs → ∀ v ∈ vs,
        (∃ kv ∈ data, kv.2 = v) ∨ ∃ a, init = some a ∧ v ∈ a := by
  intro data
  induction data with
  | nil =>
    intro n init vs h v hv
    simp only [accValsFrom, List.foldl_nil] at h
    exact Or.inr ⟨vs, h, hv⟩
  | cons kv rest ih =>
    intro n init vs h v hv
    rw [accValsFrom_cons] at h
    by_cases hg : stripS kv.1 = n
    · rw [if_pos hg] at h
      by_cases hidx : containsIndexS kv.1
      · rw [if_pos hidx] at h
        rcases ih n _ vs h v hv with hc | ⟨a, ha, hva⟩
        · obtain ⟨kv', h1, h2⟩ := hc
          exact Or.inl ⟨kv', List.mem_cons_of_mem _ h1, h2⟩
        · injection ha with ha
          subst ha
          rcases mem_insertDedup hva with hva | hva
          · cases init with
            | none => simp at hva
            | some a0 => exact Or.inr ⟨a0, rfl, hva⟩
          · exact Or.inl ⟨kv, List.mem_cons_self _ _, hva.symm⟩
      · rw [if_neg hidx] at h
        rcases ih n _ vs h v hv with hc | ⟨a, ha, hva⟩
        · obtain ⟨kv', h1, h2⟩ := hc
          exact Or.inl ⟨kv', List.mem_cons_of_mem _ h1, h2⟩
        · injection ha with ha
          subst ha
          rcases List.mem_singleton.mp hva with hva
          exact Or.inl ⟨kv, List.mem_cons_self _ _, hva.symm⟩
    · rw [if_neg hg] at h
      rcases ih n init vs h v hv with hc | hc
      · obtain ⟨kv', h1, h2⟩ := hc
        exact Or.inl ⟨kv', List.mem_cons_of_mem _ h1, h2⟩
      · exact Or.inr hc

theorem accValsFrom_ne_nil :
    ∀ (data : List (String × Val)) (n : String) (init : Option (List Val)) (vs : List Val),
      (init = none ∨ ∃ a, init = some a ∧ a ≠ []) →
      accValsFrom data n init = some vs → vs ≠ [] := by
  intro data
  induction data with
  | nil =>
    intro n init vs hinit h
    simp only [accValsFrom, List.foldl_nil] at h
    rcases hinit with hinit | ⟨a, ha, hane⟩
    · rw [hinit] at h; exact absurd h (by simp)
    · rw [ha] at h; injection h with h; exact h ▸ hane
  | cons kv rest ih =>
    intro n init vs hinit h
    rw [accValsFrom_cons] at h
    by_cases hg : stripS kv.1 = n
    · rw [if_pos hg] at h
      by_cases hidx : containsIndexS kv.1
      · rw [if_pos hidx] at h
        exact ih n _ vs (Or.inr ⟨_, rfl, insertDedup_ne_nil _ _⟩) h
      · rw [if_neg hidx] at h
        exact ih n _ vs (Or.inr ⟨_, rfl, by simp⟩) h
    · rw [if_neg hg] at h
      exact ih n init vs hinit h

theorem asStrs_map_str : ∀ ss : List String, asStrs (ss.map Val.str) = some ss := by
  intro ss
  induction ss with
  | nil => rfl
  | cons s rest ih => simp [asStrs, ih]

theorem exists_strs_of_all {vs : List Val} (h : ∀ v ∈ vs, ∃ s, v = Val.str s) :
    ∃ ss : List String, vs = ss.map Val.str := by
  induction vs with
  | nil => exact ⟨[], rfl⟩
  | cons v rest ih =>
    obtain ⟨s, hs⟩ := h v (List.mem_cons_self _ _)
    obtain ⟨ss, hss⟩ := ih (fun v hv => h v (List.mem_cons_of_mem _ hv))
    exact ⟨s :: ss, by simp [hs, hss]⟩

theorem finalizeEntry_single (v : Val) : finalizeEntry [v] = .ok v := rfl

theorem finalizeEntry_strs_long (ss : List String) (h : 1 < ss.length) :
    finalizeEntry (ss.map Val.str) = .ok (.str (pipeJoin (sortStrs ss))) := by
  match ss, h with
  | s1 :: s2 :: rest, _ =>
    show finalizeEntry (Val.str s1 :: Val.str s2 :: rest.map Val.str) = _
    simp only [finalizeEntry]
    rw [show Val.str s1 :: Val.str s2 :: rest.map Val.str =
      ((s1 :: s2 :: rest).map Val.str) from rfl]
    rw [asStrs_map_str]

theorem finalizeEntry_of_strs (ss : List String) (hne : ss ≠ []) :
    ∃ w, finalizeEntry (ss.map Val.str) = .ok w ∧
      (∀ s, ss = [s] → w = .str s) ∧
      (1 < ss.length → w = .str (pipeJoin (sortStrs ss))) := by
  match ss, hne with
  | [s], _ =>
    refine ⟨.str s, finalizeEntry_single _, fun s' hs' => ?_, fun hlen => by simp at hlen⟩
    injection hs' with h1 _
    rw [h1]
  | s1 :: s2 :: rest, _ =>
    refine ⟨.str (pipeJoin (sortStrs (s1 :: s2 :: rest))),
      finalizeEntry_strs_long _ (by simp), fun s' hs' => by simp at hs', fun _ => rfl⟩

theorem mem_dedupList {l : List Val} {v : Val} (h : v ∈ dedupList l) : v ∈ l := by
  have haux : ∀ (l : List Val) (acc : List Val) (v : Val),
      v ∈ l.foldl insertDedup acc → v ∈ acc ∨ v ∈ l := by
    intro l
    induction l with
    | nil => intro acc v h; exact Or.inl h
    | cons x rest ih =>
      intro acc v h
      rcases ih _ v h with hc | hc
      · rcases mem_insertDedup hc with hc | hc
        · exact Or.inl hc
        · exact Or.inr (hc ▸ List.mem_cons_self _ _)
      · exact Or.inr (List.mem_cons_of_mem _ hc)
  rcases haux l [] v h with hc | hc
  · simp at hc
  · exact hc

theorem mem_contribVals {data : List (String × Val)} {n : String} {v : Val}
    (h : v ∈ contribVals data n) : ∃ kv ∈ data, kv.2 = v := by
  simp only [contribVals, List.mem_map] at h
  obtain ⟨kv, hkv, hkv2⟩ := h
  exact ⟨kv, List.mem_of_mem_filter hkv, hkv2⟩

theorem contribVals_ne_nil_iff (data : List (String × Val)) (n : String) :
    contribVals data n ≠ [] ↔ ∃ kv ∈ data, stripS kv.1 = n := by
  simp only [contribVals, ne_eq, List.map_eq_nil_iff, List.filter_eq_nil_iff]
  push_neg
  constructor
  · intro ⟨kv, hkv, h⟩
    exact ⟨kv, hkv, by simpa using h⟩
  · intro ⟨kv, hkv, h⟩
    exact ⟨kv, hkv, by simpa using h⟩

/-- The value set accumulated for a name is the deduplicated list of all
contributing values — except that a plain (non-indexed) key resets it,
which under the separation hypothesis `hsep` cannot be observed. -/
theorem accValsFrom_eq_dedup (data : List (String × Val)) (n : String)
    (hnd : (data.map Prod.fst).Nodup)
    (hsep : ∀ kv ∈ data, containsIndexS kv.1 = false →
      ∀ kv' ∈ data, stripS kv'.1 = kv.1 → kv' = kv) :
    ∀ vs, accValsFrom data n none = some vs → vs = dedupList (contribVals data n) := by
  intro vs h
  by_cases hplain : ∃ kv ∈ data, containsIndexS kv.1 = false ∧ stripS kv.1 = n
  · obtain ⟨⟨k, v⟩, hkv, hpl, hkn⟩ := hplain
    have hkId : stripS k = k := stripS_of_not_contains hpl
    have hkn' : k = n := by rw [← hkId]; exact hkn
    subst hkn'
    have honly : ∀ kv ∈ data, stripS kv.1 = k → kv.1 = k := by
      intro kv hkv' hs
      have := hsep (k, v) hkv hpl kv hkv' hs
      rw [this]
    have hfil := filter_contrib_eq_single hkv hnd honly hkId
    rw [accValsFrom_plain_single data k v hfil] at h
    injection h with h
    subst h
    have : contribVals data k = [v] := by
      simp [contribVals, hfil]
    rw [this]
    rfl
  · have hall : ∀ kv ∈ data, stripS kv.1 = n → containsIndexS kv.1 = true := by
      intro kv hkv hs
      by_contra hc
      exact hplain ⟨kv, hkv, by simpa using hc, hs⟩
    have hne : contribVals data n ≠ [] := by
      intro hc
      rw [accValsFrom_no_contrib hc] at h
      exact absurd h (by simp)
    rw [accValsFrom_indexed_none data n hall hne] at h
    injection h with h
    exact h.symm

/-- Characterisation of `merge_and_deduplicate` on an input dict whose
values are all strings, where no plain key shares a normalized name
with another key, and where no normalized key still contains an index
group: the merge succeeds and behaves as the §3 invariant says. -/
theorem mergeCharacterization_aux
    (data : List (String × Val))
    (hnd : (data.map Prod.fst).Nodup)
    (hstr : ∀ kv ∈ data, ∃ s, kv.2 = Val.str s)
    (hidem : ∀ kv ∈ data, containsIndexS (stripS kv.1) = false)
    (hsep : ∀ kv ∈ data, containsIndexS kv.1 = false →
      ∀ kv' ∈ data, stripS kv'.1 = kv.1 → kv' = kv) :
    ∃ m, mergeAndDeduplicate data = .ok m ∧
      (m.map Prod.fst).Nodup ∧
      (∀ e ∈ m, containsIndexS e.1 = false) ∧
      (∀ n, (pyGet m n).isSome ↔ ∃ kv ∈ data, stripS kv.1 = n) ∧
      (∀ n w, pyGet m n = some w →
        ∃ ss : List String, dedupList (contribVals data n) = ss.map Val.str ∧ ss ≠ [] ∧
          (∀ s, ss = [s] → w = .str s) ∧
          (1 < ss.length → w = .str (pipeJoin (sortStrs ss)))) := by
  have hhash : ∀ kv ∈ data, kv.2.hashable = true := by
    intro kv hkv
    obtain ⟨s, hs⟩ := hstr kv hkv
    rw [hs]
    rfl
  obtain ⟨st, hst⟩ := buildMerged_ok data [] hhash
  have hstnd : (st.map Prod.fst).Nodup := buildMerged_nodup data [] st hst (by simp)
  have hstlu : ∀ n, pyGet st n = accValsFrom data n none := by
    intro n
    exact buildMerged_lookup data [] st hst n
  have hvals : ∀ n vs, pyGet st n = some vs →
      ∃ ss : List String, vs = ss.map Val.str ∧ ss ≠ [] ∧
        dedupList (contribVals data n) = ss.map Val.str := by
    intro n vs hlu
    rw [hstlu n] at hlu
    have hvstr : ∀ v ∈ vs, ∃ s, v = Val.str s := by
      intro v hv
      rcases accValsFrom_provenance data n none vs hlu v hv with ⟨kv, hkv, hkv2⟩ | ⟨a, ha, _⟩
      · obtain ⟨s, hs⟩ := hstr kv hkv
        exact ⟨s, by rw [← hkv2, hs]⟩
      · exact absurd ha (by simp)
    have hvne : vs ≠ [] := accValsFrom_ne_nil data n none vs (Or.inl rfl) hlu
    obtain ⟨ss, hss⟩ := exists_strs_of_all hvstr
    have hssne : ss ≠ [] := by
      intro hc
      rw [hc] at hss
      exact hvne (by simpa using hss)
    refine ⟨ss, hss, hssne, ?_⟩
    rw [← hss]
    exact (accValsFrom_eq_dedup data n hnd hsep vs hlu).symm
  have hentry : ∀ e ∈ st, ∃ w, finalizeEntry e.2 = .ok w := by
    intro e he
    obtain ⟨n, vs⟩ := e
    have hlu : pyGet st n = some vs := pyGet_eq_some_of_mem he hstnd
    obtain ⟨ss, hss, hssne, -⟩ := hvals n vs hlu
    obtain ⟨w, hw, -, -⟩ := finalizeEntry_of_strs ss hssne
    exact ⟨w, by rw [hss]; exact hw⟩
  obtain ⟨m, hm⟩ := finalizeAll_ok st hentry
  have hmerge : mergeAndDeduplicate data = .ok m := by
    simp only [mergeAndDeduplicate, hst]
    exact hm
  have hkeys : m.map Prod.fst = st.map Prod.fst := finalizeAll_keys st m hm
  refine ⟨m, hmerge, hkeys ▸ hstnd, ?_, ?_, ?_⟩
  · intro e he
    have : e.1 ∈ st.map Prod.fst := hkeys ▸ List.mem_map_of_mem Prod.fst he
    rcases buildMerged_keys data [] st hst e.1 this with hc | ⟨kv, hkv, hkv2⟩
    · simp at hc
    · rw [hkv2]
      exact hidem kv hkv
  · intro n
    have hfl := finalizeAll_lookup st m hm n
    constructor
    · intro hsome
      cases hlu : pyGet st n with
      | none =>
        rw [hfl.1 hlu] at hsome
        simp at hsome
      | some vs =>
        rw [hstlu n] at hlu
        have : contribVals data n ≠ [] := by
          intro hc
          rw [accValsFrom_no_contrib hc] at hlu
          exact absurd hlu (by simp)
        exact (contribVals_ne_nil_iff data n).mp this
    · intro hex
      have hcne : contribVals data n ≠ [] := (contribVals_ne_nil_iff data n).mpr hex
      cases hlu : pyGet st n with
      | none =>
        rw [hstlu n, accValsFrom_none_iff] at hlu
        exact absurd hlu hcne
      | some vs =>
        obtain ⟨w, -, hw2⟩ := hfl.2 vs hlu
        rw [hw2]
        rfl
  · intro n w hw
    have hfl := finalizeAll_lookup st m hm n
    cases hlu : pyGet st n with
    | none =>
      rw [hfl.1 hlu] at hw
      exact absurd hw (by simp)
    | some vs =>
      obtain ⟨w', hw'1, hw'2⟩ := hfl.2 vs hlu
      have hww : w' = w := by
        rw [hw'2] at hw
        injection hw
      obtain ⟨ss, hss, hssne, hdd⟩ := hvals n vs hlu
      obtain ⟨w2, hw2, hsingle, hlong⟩ := finalizeEntry_of_strs ss hssne
      rw [hss] at hw'1
      rw [hw'1] at hw2
      injection hw2 with hww2
      refine ⟨ss, hdd, hssne, fun s hs => ?_, fun hlen => ?_⟩
      · rw [← hww, hww2]
        exact hsingle s hs
      · rw [← hww, hww2]
        exact hlong hlen

/-- Counterexample to claim C5 as stated: the raw keys `a[0]_suffix`
and `a_suffix` both normalize to `a_suffix` and carry the distinct
values `"x"` and `"y"`, but because the plain key is assigned *after*
the indexed one, its fresh singleton overwrites the accumulated set and
the result is `"y"` instead of the pipe-joined `"x|y"`. -/
theorem merge_plain_key_overwrites_counterexample :
    mergeAndDeduplicate [("a[0]_suffix", .str "x"), ("a_suffix", .str "y")] =
      .ok [("a_suffix", .str "y")] ∧
    stripS "a[0]_suffix" = "a_suffix" ∧
    Val.str "y" ≠ Val.str (pipeJoin (sortStrs ["x", "y"])) := by
  refine ⟨rfl, rfl, fun hc => ?_⟩
  injection hc with hc
  exact absurd hc (by decide)

/-- Amended claim C5: on an input dict with (pairwise distinct) keys,
all-string values, no normalized key still containing an index group,
and no plain key sharing its normalized name with any other key — the
situation `parse_work` produces, and the situation in which the claimed
invariant is recoverable, since a plain key *overwrites* (rather than
joins) the set accumulated by earlier same-named indexed keys —
`merge_and_deduplicate` succeeds with unique index-free keys; a name is
present iff some raw key normalizes to it, a name whose distinct-value
set is a singleton maps to that scalar itself, and a name with more
than one distinct value maps to the sorted, deduplicated, `|`-joined
string. -/
theorem merge_invariant_amended
    (data : List (String × Val))
    (hnd : (data.map Prod.fst).Nodup)
    (hstr : ∀ kv ∈ data, ∃ s, kv.2 = Val.str s)
    (hidem : ∀ kv ∈ data, containsIndexS (stripS kv.1) = false)
    (hsep : ∀ kv ∈ data, containsIndexS kv.1 = false →
      ∀ kv' ∈ data, stripS kv'.1 = kv.1 → kv' = kv) :
    ∃ m, mergeAndDeduplicate data = .ok m ∧
      (m.map Prod.fst).Nodup ∧
      (∀ e ∈ m, containsIndexS e.1 = false) ∧
      (∀ n, (pyGet m n).isSome ↔ ∃ kv ∈ data, stripS kv.1 = n) ∧
      (∀ n w, pyGet m n = some w →
        ∃ ss : List String, dedupList (contribVals data n) = ss.map Val.str ∧ ss ≠ [] ∧
          (∀ s, ss = [s] → w = .str s) ∧
          (1 < ss.length → w = .str (pipeJoin (sortStrs ss)))) :=
  mergeCharacterization_aux data hnd hstr hidem hsep

/-- Witness for the amended claim C5: two indexed sibling keys with the
distinct values `"x"` and `"y"` merge into the single index-free key
`a_suffix`; the theorem applies because the key set is duplicate-free,
all-string, index-free after normalization, and plain-key-free. -/
theorem merge_invariant_amended_witness :
    (([("a[0]_suffix", Val.str "x"), ("a[1]_suffix", Val.str "y")].map Prod.fst).Nodup ∧
      (∀ kv ∈ [("a[0]_suffix", Val.str "x"), ("a[1]_suffix", Val.str "y")],
        containsIndexS (stripS kv.1) = false)) ∧
    ∃ m, mergeAndDeduplicate [("a[0]_suffix", Val.str "x"), ("a[1]_suffix", Val.str "y")] =
        .ok m ∧
      (m.map Prod.fst).Nodup ∧
      (∀ e ∈ m, containsIndexS e.1 = false) ∧
      (∀ n, (pyGet m n).isSome ↔
        ∃ kv ∈ [("a[0]_suffix", Val.str "x"), ("a[1]_suffix", Val.str "y")],
          stripS kv.1 = n) ∧
      (∀ n w, pyGet m n = some w →
        ∃ ss : List String,
          dedupList (contribVals [("a[0]_suffix", Val.str "x"),
            ("a[1]_suffix", Val.str "y")] n) = ss.map Val.str ∧ ss ≠ [] ∧
          (∀ s, ss = [s] → w = .str s) ∧
          (1 < ss.length → w = .str (pipeJoin (sortStrs ss)))) := by
  refine ⟨⟨by decide, by decide⟩, ?_⟩
  exact merge_invariant_amended
    [("a[0]_suffix", Val.str "x"), ("a[1]_suffix", Val.str "y")]
    (by decide)
    (by
      intro kv hkv
      rcases List.mem_cons.mp hkv with h | h
      · exact ⟨"x", by rw [h]⟩
      · rw [List.mem_singleton.mp h]
        exact ⟨"y", rfl⟩)
    (by decide)
    (by
      intro kv hkv hfalse
      rcases List.mem_cons.mp hkv with h | h
      · rw [h] at hfalse
        exact absurd hfalse (by decide)
      · rw [List.mem_singleton.mp h] at hfalse
        exact absurd hfalse (by decide))

/-! ## Shape of the keys accumulated by `parse_work`

Every key written into `parsed_data` is either one of the fixed plain
field names, a `percentiles_`-prefixed key, a `grants`-prefixed key, or
a retained display-name path (which contains `display_name` and one of
the four family markers). -/

def fixedPlainKeys : List String :=
  basicFields ++ ["pmid", "mag", "apc_paid"] ++ countFields ++
    ["primary_location_display_name", "primary_location_host_organization_name",
     "publication_date", "open_access_is_oa", "open_access_oa_status",
     "countries_codes", "abstract"]

def KeyShape (k : String) : Prop :=
  k ∈ fixedPlainKeys ∨
    (∃ s, k = "percentiles_" ++ s) ∨
    (∃ s, k = "grants" ++ s) ∨
    (("display_name".data <:+: k.data) ∧
      (("authorships".data <:+: k.data) ∨ ("topics".data <:+: k.data) ∨
        ("keywords".data <:+: k.data) ∨
        ("sustainable_development_goals".data <:+: k.data)))

theorem mem_foldl_generic {α : Type} (l : List α)
    (body : List (String × Val) → α → List (String × Val)) (P : String → Prop)
    (hbody : ∀ p a, a ∈ l → ∀ kv, kv ∈ body p a → kv ∈ p ∨ P kv.1) :
    ∀ p kv, kv ∈ l.foldl body p → kv ∈ p ∨ P kv.1 := by
  induction l with
  | nil => intro p kv h; exact Or.inl h
  | cons a rest ih =>
    intro p kv h
    rcases ih (fun p a ha kv => hbody p a (List.mem_cons_of_mem _ ha) kv) (body p a) kv h with
      hc | hc
    · exact hbody p a (List.mem_cons_self _ _) kv hc
    · exact Or.inr hc

theorem pyGet_foldl_preserve {α : Type} (l : List α)
    (body : List (String × Val) → α → List (String × Val)) (t : String)
    (hbody : ∀ p a, a ∈ l → pyGet (body p a) t = pyGet p t) :
    ∀ p, pyGet (l.foldl body p) t = pyGet p t := by
  induction l with
  | nil => intro p; rfl
  | cons a rest ih =>
    intro p
    rw [List.foldl_cons,
      ih (fun p a ha => hbody p a (List.mem_cons_of_mem _ ha)) (body p a),
      hbody p a (List.mem_cons_self _ _)]

theorem nodup_foldl_generic {α : Type} (l : List α)
    (body : List (String × Val) → α → List (String × Val))
    (hbody : ∀ p a, (p.map Prod.fst).Nodup → ((body p a).map Prod.fst).Nodup) :
    ∀ p, (p.map Prod.fst).Nodup → ((l.foldl body p).map Prod.fst).Nodup := by
  induction l with
  | nil => intro p h; exact h
  | cons a rest ih => intro p h; exact ih (body p a) (hbody p a h)

theorem append_ne_of_not_pref {p t : String} (h : ¬p.data <+: t.data) (x : String) :
    p ++ x ≠ t := by
  intro hc
  apply h
  refine ⟨x.data, ?_⟩
  rw [← String.data_append, hc]

/-! Per-step lookup preservation. -/

theorem basicStep_preserve (rec : Val) (p : List (String × Val)) (t : String)
    (h : t ∉ basicFields) : pyGet (basicStep rec p) t = pyGet p t := by
  refine pyGet_foldl_preserve _ _ _ (fun p f hf => ?_) p
  have hne : t ≠ f := fun hc => h (hc ▸ hf)
  cases getAttr rec f (if f = "doi" then .str "" else .null) with
  | some v => exact pyGet_setKey_ne _ _ _ _ hne
  | none => rfl

theorem idsStep_preserve (rec : Val) (p : List (String × Val)) (t : String)
    (h1 : t ≠ "pmid") (h2 : t ≠ "mag") : pyGet (idsStep rec p) t = pyGet p t := by
  unfold idsStep
  split
  · rw [pyGet_setKey_ne _ _ _ _ h2, pyGet_setKey_ne _ _ _ _ h1]
  · rfl

theorem apcStep_preserve (rec : Val) (p : List (String × Val)) (t : String)
    (h : t ≠ "apc_paid") : pyGet (apcStep rec p) t = pyGet p t := by
  unfold apcStep
  split
  · rw [pyGet_setKey_ne _ _ _ _ h]
  · rw [pyGet_setKey_ne _ _ _ _ h]
  · rfl

theorem countsStep_preserve (rec : Val) (p : List (String × Val)) (t : String)
    (h : t ∉ countFields) : pyGet (countsStep rec p) t = pyGet p t := by
  refine pyGet_foldl_preserve _ _ _ (fun p f hf => ?_) p
  have hne : t ≠ f := fun hc => h (hc ▸ hf)
  cases getAttr rec f .null with
  | some v => exact pyGet_setKey_ne _ _ _ _ hne
  | none => rfl

theorem primaryLocationStep_preserve (rec : Val) (p : List (String × Val)) (t : String)
    (h1 : t ≠ "primary_location_display_name")
    (h2 : t ≠ "primary_location_host_organization_name") :
    pyGet (primaryLocationStep rec p) t = pyGet p t := by
  unfold primaryLocationStep
  split
  · split
    · rw [pyGet_setKey_ne _ _ _ _ h2, pyGet_setKey_ne _ _ _ _ h1]
    · rfl
  · rfl

theorem pubDateStep_preserve (rec : Val) (p : List (String × Val)) (t : String)
    (h : t ≠ "publication_date") : pyGet (pubDateStep rec p) t = pyGet p t := by
  unfold pubDateStep
  split
  · split
    · split
      · rw [pyGet_setKey_ne _ _ _ _ h]
      · rfl
    · rfl
  · rfl

theorem percentilesStep_preserve (rec : Val) (p : List (String × Val)) (t : String)
    (h : ¬("percentiles_".data <+: t.data)) :
    pyGet (percentilesStep rec p) t = pyGet p t := by
  unfold percentilesStep
  split
  next fs heq =>
    refine pyGet_foldl_preserve _ _ _ (fun p kv _ => ?_) p
    exact pyGet_setKey_ne _ _ _ _ (fun hc => append_ne_of_not_pref h kv.1 hc.symm)
  · rfl

theorem openAccessStep_preserve (rec : Val) (p : List (String × Val)) (t : String)
    (h1 : t ≠ "open_access_is_oa") (h2 : t ≠ "open_access_oa_status") :
    pyGet (openAccessStep rec p) t = pyGet p t := by
  unfold openAccessStep
  split
  · rw [pyGet_setKey_ne _ _ _ _ h2, pyGet_setKey_ne _ _ _ _ h1]
  · rfl

theorem grantsLoop_preserve (t : String) (h : ¬("grants".data <+: t.data)) :
    ∀ (gs : List Val) (i : Nat) (p : List (String × Val)),
      pyGet (grantsLoop p gs i) t = pyGet p t := by
  intro gs
  induction gs with
  | nil => intro i p; rfl
  | cons g rest ih =>
    intro i p
    cases g with
    | dict gfs =>
      rw [show grantsLoop p (.dict gfs :: rest) i =
        grantsLoop (setKey p ("grants" ++ ("[" ++ toString i ++ "]_funder_display_name"))
          ((pyGet gfs "funder_display_name").getD .null)) rest (i + 1) from rfl]
      rw [ih (i + 1) _]
      exact pyGet_setKey_ne _ _ _ _
        (fun hc => append_ne_of_not_pref h _ hc.symm)
    | null => rfl
    | bool b => rfl
    | int n => rfl
    | str s => rfl
    | list xs => rfl

theorem grantsStep_preserve (rec : Val) (p : List (String × Val)) (t : String)
    (h : ¬("grants".data <+: t.data)) : pyGet (grantsStep rec p) t = pyGet p t := by
  unfold grantsStep
  split
  · exact grantsLoop_preserve t h _ _ _
  · rfl

theorem countriesStep_preserve (rec : Val) (p : List (String × Val)) (t : String)
    (h : t ≠ "countries_codes") : pyGet (countriesStep rec p) t = pyGet p t := by
  unfold countriesStep
  split
  · split
    · rw [pyGet_setKey_ne _ _ _ _ h]
    · rfl
  · rfl

theorem abstractStep_preserve (rec : Val) (p : List (String × Val)) (t : String)
    (h : t ≠ "abstract") : pyGet (abstractStep rec p) t = pyGet p t := by
  unfold abstractStep
  split
  · split
    · rw [pyGet_setKey_ne _ _ _ _ h]
    · rfl
  · rfl

/-! The display-name phase. -/

theorem keepPath_decompose {q : String} (h : keepPath q = true) :
    strContains q "display_name" = true ∧
      (strContains q "authorships" = true ∨ strContains q "topics" = true ∨
        strContains q "keywords" = true ∨
        strContains q "sustainable_development_goals" = true) := by
  simp only [keepPath, Bool.and_eq_true, Bool.or_eq_true] at h
  exact ⟨h.2, by tauto⟩

theorem mem_keys_addGroup (g : List (String × List Val)) (p' q : String) (v : Val) :
    q ∈ (addGroup g p' v).map Prod.fst ↔ q = p' ∨ q ∈ g.map Prod.fst := by
  induction g with
  | nil => simp [addGroup]
  | cons kv rest ih =>
    obtain ⟨k, vs⟩ := kv
    by_cases h : k = p'
    · subst h
      simp [addGroup]
    · simp only [addGroup, if_neg h, List.map_cons, List.mem_cons, ih]
      tauto

theorem displayGroups_keys (pairs : List (String × Val)) :
    ∀ (g₀ : List (String × List Val)),
      (∀ q ∈ g₀.map Prod.fst, keepPath q = true) →
      ∀ q ∈ ((pairs.foldl
        (fun g pv => if keepPath pv.1 then addGroup g pv.1 pv.2 else g) g₀).map Prod.fst),
        keepPath q = true := by
  induction pairs with
  | nil => intro g₀ h q hq; exact h q hq
  | cons pv rest ih =>
    intro g₀ h q hq
    rw [List.foldl_cons] at hq
    by_cases hk : keepPath pv.1
    · rw [if_pos hk] at hq
      refine ih _ (fun q' hq' => ?_) q hq
      rcases (mem_keys_addGroup g₀ pv.1 q' pv.2).mp hq' with hc | hc
      · exact hc ▸ hk
      · exact h q' hc
    · rw [if_neg hk] at hq
      exact ih g₀ h q hq

theorem mem_capTen_keys {g : List (String × List Val)} {pv : String × List Val}
    (h : pv ∈ capTen g) : pv.1 ∈ g.map Prod.fst := by
  simp only [capTen, List.mem_map] at h
  obtain ⟨pv', hpv', heq⟩ := h
  rw [← heq]
  show pv'.1 ∈ g.map Prod.fst
  exact List.mem_map_of_mem Prod.fst hpv'


theorem infix_map_of_fixed {needle l : List Char} (f : Char → Char)
    (hfix : ∀ c ∈ needle, f c = c) (h : needle <:+: l) : needle <:+: l.map f := by
  obtain ⟨s, t, hst⟩ := h
  refine ⟨s.map f, t.map f, ?_⟩
  rw [← hst]
  simp only [List.map_append]
  congr 1
  congr 1
  rw [List.map_congr_left hfix, List.map_id']

theorem infix_dotsToUnderscores {needle q : String}
    (hnod : ∀ c ∈ needle.data, c ≠ '.')
    (h : needle.data <:+: q.data) : needle.data <:+: (dotsToUnderscores q).data := by
  show needle.data <:+: q.data.map (fun c => if c = '.' then '_' else c)
  refine infix_map_of_fixed _ (fun c hc => ?_) h
  rw [if_neg (hnod c hc)]

theorem assignDisplay_preserve (t : String) (h : ¬("display_name".data <:+: t.data)) :
    ∀ (groups : List (String × List Val)) (p : List (String × Val)),
      (∀ pv ∈ groups, keepPath pv.1 = true) →
      pyGet (assignDisplay p groups) t = pyGet p t := by
  intro groups
  induction groups with
  | nil => intro p _; rfl
  | cons pv rest ih =>
    intro p hall
    obtain ⟨path, vs⟩ := pv
    show pyGet (match joinVals vs with
      | some s => assignDisplay (setKey p (dotsToUnderscores path) (.str s)) rest
      | none => p) t = pyGet p t
    cases joinVals vs with
    | none => rfl
    | some s =>
      rw [ih _ (fun pv hpv => hall pv (List.mem_cons_of_mem _ hpv))]
      refine pyGet_setKey_ne _ _ _ _ (fun hc => ?_)
      apply h
      rw [hc]
      have hkeep := keepPath_decompose (hall (path, vs) (List.mem_cons_self _ _))
      exact infix_dotsToUnderscores (by decide) (strContains_inf hkeep.1)

theorem mem_assignDisplay :
    ∀ (groups : List (String × List Val)) (p : List (String × Val)) (kv : String × Val),
      kv ∈ assignDisplay p groups →
      kv ∈ p ∨ ∃ pv ∈ groups, kv.1 = dotsToUnderscores pv.1 := by
  intro groups
  induction groups with
  | nil => intro p kv h; exact Or.inl h
  | cons pv rest ih =>
    intro p kv h
    obtain ⟨path, vs⟩ := pv
    rw [show assignDisplay p ((path, vs) :: rest) = (match joinVals vs with
      | some s => assignDisplay (setKey p (dotsToUnderscores path) (.str s)) rest
      | none => p) from rfl] at h
    cases hj : joinVals vs with
    | none =>
      rw [hj] at h
      exact Or.inl h
    | some s =>
      rw [hj] at h
      rcases ih _ kv h with hc | ⟨pv', hpv', heq⟩
      · rcases mem_setKey hc with hc | hc
        · exact Or.inr ⟨(path, vs), List.mem_cons_self _ _, hc⟩
        · exact Or.inl hc
      · exact Or.inr ⟨pv', List.mem_cons_of_mem _ hpv', heq⟩

theorem displayStep_preserve (rec : Val) (p : List (String × Val)) (t : String)
    (h : ¬("display_name".data <:+: t.data)) :
    pyGet (displayStep rec p) t = pyGet p t := by
  unfold displayStep
  refine assignDisplay_preserve t h _ p (fun pv hpv => ?_)
  exact displayGroups_keys _ [] (by simp) pv.1 (mem_capTen_keys hpv)

theorem mem_displayStep {rec : Val} {p : List (String × Val)} {kv : String × Val}
    (h : kv ∈ displayStep rec p) :
    kv ∈ p ∨ (("display_name".data <:+: kv.1.data) ∧
      (("authorships".data <:+: kv.1.data) ∨ ("topics".data <:+: kv.1.data) ∨
        ("keywords".data <:+: kv.1.data) ∨
        ("sustainable_development_goals".data <:+: kv.1.data))) := by
  unfold displayStep at h
  rcases mem_assignDisplay _ p kv h with hc | ⟨pv, hpv, heq⟩
  · exact Or.inl hc
  · right
    have hkeep := keepPath_decompose
      (displayGroups_keys _ [] (by simp) pv.1 (mem_capTen_keys hpv))
    rw [heq]
    refine ⟨infix_dotsToUnderscores (by decide) (strContains_inf hkeep.1), ?_⟩
    rcases hkeep.2 with hm | hm | hm | hm
    · exact Or.inl (infix_dotsToUnderscores (by decide) (strContains_inf hm))
    · exact Or.inr (Or.inl (infix_dotsToUnderscores (by decide) (strContains_inf hm)))
    · exact Or.inr (Or.inr (Or.inl
        (infix_dotsToUnderscores (by decide) (strContains_inf hm))))
    · exact Or.inr (Or.inr (Or.inr
        (infix_dotsToUnderscores (by decide) (strContains_inf hm))))

/-! Membership shape, step by step. -/

theorem mem_basicStep {rec : Val} {p : List (String × Val)} {kv : String × Val}
    (h : kv ∈ basicStep rec p) : kv ∈ p ∨ KeyShape kv.1 := by
  rcases mem_foldl_generic basicFields _ (fun k => k ∈ basicFields)
    (fun p f hf kv hkv => by
      revert hkv
      cases getAttr rec f (if f = "doi" then .str "" else .null) with
      | some v =>
        intro hkv
        rcases mem_setKey hkv with hc | hc
        · exact Or.inr (hc ▸ hf)
        · exact Or.inl hc
      | none => intro hkv; exact Or.inl hkv) p kv h with hc | hc
  · exact Or.inl hc
  · refine Or.inr (Or.inl ?_)
    simp only [fixedPlainKeys, List.mem_append]
    tauto

theorem mem_idsStep {rec : Val} {p : List (String × Val)} {kv : String × Val}
    (h : kv ∈ idsStep rec p) : kv ∈ p ∨ KeyShape kv.1 := by
  unfold idsStep at h
  split at h
  · rcases mem_setKey h with hc | hc
    · exact Or.inr (Or.inl (by rw [hc]; decide))
    · rcases mem_setKey hc with hc | hc
      · exact Or.inr (Or.inl (by rw [hc]; decide))
      · exact Or.inl hc
  · exact Or.inl h

theorem mem_apcStep {rec : Val} {p : List (String × Val)} {kv : String × Val}
    (h : kv ∈ apcStep rec p) : kv ∈ p ∨ KeyShape kv.1 := by
  unfold apcStep at h
  split at h
  · rcases mem_setKey h with hc | hc
    · exact Or.inr (Or.inl (by rw [hc]; decide))
    · exact Or.inl hc
  · rcases mem_setKey h with hc | hc
    · exact Or.inr (Or.inl (by rw [hc]; decide))
    · exact Or.inl hc
  · exact Or.inl h

theorem mem_countsStep {rec : Val} {p : List (String × Val)} {kv : String × Val}
    (h : kv ∈ countsStep rec p) : kv ∈ p ∨ KeyShape kv.1 := by
  rcases mem_foldl_generic countFields _ (fun k => k ∈ countFields)
    (fun p f hf kv hkv => by
      revert hkv
      cases getAttr rec f .null with
      | some v =>
        intro hkv
        rcases mem_setKey hkv with hc | hc
        · exact Or.inr (hc ▸ hf)
        · exact Or.inl hc
      | none => intro hkv; exact Or.inl hkv) p kv h with hc | hc
  · exact Or.inl hc
  · refine Or.inr (Or.inl ?_)
    simp only [fixedPlainKeys, List.mem_append]
    tauto

theorem mem_primaryLocationStep {rec : Val} {p : List (String × Val)} {kv : String × Val}
    (h : kv ∈ primaryLocationStep rec p) : kv ∈ p ∨ KeyShape kv.1 := by
  unfold primaryLocationStep at h
  split at h
  · split at h
    · rcases mem_setKey h with hc | hc
      · exact Or.inr (Or.inl (by rw [hc]; decide))
      · rcases mem_setKey hc with hc | hc
        · exact Or.inr (Or.inl (by rw [hc]; decide))
        · exact Or.inl hc
    · exact Or.inl h
  · exact Or.inl h

theorem mem_pubDateStep {rec : Val} {p : List (String × Val)} {kv : String × Val}
    (h : kv ∈ pubDateStep rec p) : kv ∈ p ∨ KeyShape kv.1 := by
  unfold pubDateStep at h
  split at h
  · split at h
    · split at h
      · rcases mem_setKey h with hc | hc
        · exact Or.inr (Or.inl (by rw [hc]; decide))
        · exact Or.inl hc
      · exact Or.inl h
    · exact Or.inl h
  · exact Or.inl h

theorem mem_percentilesStep {rec : Val} {p : List (String × Val)} {kv : String × Val}
    (h : kv ∈ percentilesStep rec p) : kv ∈ p ∨ KeyShape kv.1 := by
  unfold percentilesStep at h
  split at h
  next fs heq =>
    rcases mem_foldl_generic fs _ (fun k => ∃ s, k = "percentiles_" ++ s)
      (fun p kv' _ kv hkv => by
        rcases mem_setKey hkv with hc | hc
        · exact Or.inr ⟨kv'.1, hc⟩
        · exact Or.inl hc) p kv h with hc | hc
    · exact Or.inl hc
    · exact Or.inr (Or.inr (Or.inl hc))
  · exact Or.inl h

theorem mem_openAccessStep {rec : Val} {p : List (String × Val)} {kv : String × Val}
    (h : kv ∈ openAccessStep rec p) : kv ∈ p ∨ KeyShape kv.1 := by
  unfold openAccessStep at h
  split at h
  · rcases mem_setKey h with hc | hc
    · exact Or.inr (Or.inl (by rw [hc]; decide))
    · rcases mem_setKey hc with hc | hc
      · exact Or.inr (Or.inl (by rw [hc]; decide))
      · exact Or.inl hc
  · exact Or.inl h

theorem mem_grantsLoop :
    ∀ (gs : List Val) (i : Nat) (p : List (String × Val)) (kv : String × Val),
      kv ∈ grantsLoop p gs i → kv ∈ p ∨ ∃ s, kv.1 = "grants" ++ s := by
  intro gs
  induction gs with
  | nil => intro i p kv h; exact Or.inl h
  | cons g rest ih =>
    intro i p kv h
    cases g with
    | dict gfs =>
      rw [show grantsLoop p (.dict gfs :: rest) i =
        grantsLoop (setKey p ("grants" ++ ("[" ++ toString i ++ "]_funder_display_name"))
          ((pyGet gfs "funder_display_name").getD .null)) rest (i + 1) from rfl] at h
      rcases ih (i + 1) _ kv h with hc | hc
      · rcases mem_setKey hc with hc | hc
        · exact Or.inr ⟨_, hc⟩
        · exact Or.inl hc
      · exact Or.inr hc
    | null => exact Or.inl h
    | bool b => exact Or.inl h
    | int n => exact Or.inl h
    | str s => exact Or.inl h
    | list xs => exact Or.inl h

theorem mem_grantsStep {rec : Val} {p : List (String × Val)} {kv : String × Val}
    (h : kv ∈ grantsStep rec p) : kv ∈ p ∨ KeyShape kv.1 := by
  unfold grantsStep at h
  split at h
  · rcases mem_grantsLoop _ _ _ _ h with hc | hc
    · exact Or.inl hc
    · exact Or.inr (Or.inr (Or.inr (Or.inl hc)))
  · exact Or.inl h

theorem mem_countriesStep {rec : Val} {p : List (String × Val)} {kv : String × Val}
    (h : kv ∈ countriesStep rec p) : kv ∈ p ∨ KeyShape kv.1 := by
  unfold countriesStep at h
  split at h
  · split at h
    · rcases mem_setKey h with hc | hc
      · exact Or.inr (Or.inl (by rw [hc]; decide))
      · exact Or.inl hc
    · exact Or.inl h
  · exact Or.inl h

theorem mem_abstractStep {rec : Val} {p : List (String × Val)} {kv : String × Val}
    (h : kv ∈ abstractStep rec p) : kv ∈ p ∨ KeyShape kv.1 := by
  unfold abstractStep at h
  split at h
  · split at h
    · rcases mem_setKey h with hc | hc
      · exact Or.inr (Or.inl (by rw [hc]; decide))
      · exact Or.inl hc
    · exact Or.inl h
  · exact Or.inl h

theorem parsedData_shape (rec : Val) (b : Bool) :
    ∀ kv ∈ parsedData rec b, KeyShape kv.1 := by
  intro kv h
  simp only [parsedData] at h
  have hdisp : kv ∈ displayStep rec (countriesStep rec (grantsStep rec (openAccessStep rec
      (percentilesStep rec (pubDateStep rec (primaryLocationStep rec (countsStep rec
        (apcStep rec (idsStep rec (basicStep rec [])))))))))) ∨ KeyShape kv.1 := by
    cases b with
    | true =>
      rw [if_pos rfl] at h
      rcases mem_abstractStep h with hc | hc
      · exact Or.inl hc
      · exact Or.inr hc
    | false =>
      rw [if_neg (by simp)] at h
      exact Or.inl h
  rcases hdisp with h | hs
  rcases mem_displayStep h with h | hs
  rcases mem_countriesStep h with h | hs
  rcases mem_grantsStep h with h | hs
  rcases mem_openAccessStep h with h | hs
  rcases mem_percentilesStep h with h | hs
  rcases mem_pubDateStep h with h | hs
  rcases mem_primaryLocationStep h with h | hs
  rcases mem_countsStep h with h | hs
  rcases mem_apcStep h with h | hs
  rcases mem_idsStep h with h | hs
  rcases mem_basicStep h with h | hs
  · simp at h
  all_goals first
    | exact hs
    | exact Or.inr (Or.inr (Or.inr hs))

/-! The accumulated dict has duplicate-free keys. -/

theorem nodup_basicStep (rec : Val) {p : List (String × Val)}
    (h : (p.map Prod.fst).Nodup) : ((basicStep rec p).map Prod.fst).Nodup := by
  refine nodup_foldl_generic basicFields _ (fun p f hp => ?_) p h
  cases getAttr rec f (if f = "doi" then .str "" else .null) with
  | some v => exact nodup_keys_setKey _ _ hp
  | none => exact hp

theorem nodup_idsStep (rec : Val) {p : List (String × Val)}
    (h : (p.map Prod.fst).Nodup) : ((idsStep rec p).map Prod.fst).Nodup := by
  unfold idsStep
  split
  · exact nodup_keys_setKey _ _ (nodup_keys_setKey _ _ h)
  · exact h

theorem nodup_apcStep (rec : Val) {p : List (String × Val)}
    (h : (p.map Prod.fst).Nodup) : ((apcStep rec p).map Prod.fst).Nodup := by
  unfold apcStep
  split
  · exact nodup_keys_setKey _ _ h
  · exact nodup_keys_setKey _ _ h
  · exact h

theorem nodup_countsStep (rec : Val) {p : List (String × Val)}
    (h : (p.map Prod.fst).Nodup) : ((countsStep rec p).map Prod.fst).Nodup := by
  refine nodup_foldl_generic countFields _ (fun p f hp => ?_) p h
  cases getAttr rec f .null with
  | some v => exact nodup_keys_setKey _ _ hp
  | none => exact hp

theorem nodup_primaryLocationStep (rec : Val) {p : List (String × Val)}
    (h : (p.map Prod.fst).Nodup) : ((primaryLocationStep rec p).map Prod.fst).Nodup := by
  unfold primaryLocationStep
  split
  · split
    · exact nodup_keys_setKey _ _ (nodup_keys_setKey _ _ h)
    · exact h
  · exact h

theorem nodup_pubDateStep (rec : Val) {p : List (String × Val)}
    (h : (p.map Prod.fst).Nodup) : ((pubDateStep rec p).map Prod.fst).Nodup := by
  unfold pubDateStep
  split
  · split
    · split
      · exact nodup_keys_setKey _ _ h
      · exact h
    · exact h
  · exact h

theorem nodup_percentilesStep (rec : Val) {p : List (String × Val)}
    (h : (p.map Prod.fst).Nodup) : ((percentilesStep rec p).map Prod.fst).Nodup := by
  unfold percentilesStep
  split
  next fs heq =>
    exact nodup_foldl_generic fs _ (fun p kv hp => nodup_keys_setKey _ _ hp) p h
  · exact h

theorem nodup_openAccessStep (rec : Val) {p : List (String × Val)}
    (h : (p.map Prod.fst).Nodup) : ((openAccessStep rec p).map Prod.fst).Nodup := by
  unfold openAccessStep
  split
  · exact nodup_keys_setKey _ _ (nodup_keys_setKey _ _ h)
  · exact h

theorem nodup_grantsLoop :
    ∀ (gs : List Val) (i : Nat) {p : List (String × Val)},
      (p.map Prod.fst).Nodup → ((grantsLoop p gs i).map Prod.fst).Nodup := by
  intro gs
  induction gs with
  | nil => intro i p h; exact h
  | cons g rest ih =>
    intro i p h
    cases g with
    | dict gfs => exact ih (i + 1) (nodup_keys_setKey _ _ h)
    | null => exact h
    | bool b => exact h
    | int n => exact h
    | str s => exact h
    | list xs => exact h

theorem nodup_grantsStep (rec : Val) {p : List (String × Val)}
    (h : (p.map Prod.fst).Nodup) : ((grantsStep rec p).map Prod.fst).Nodup := by
  unfold grantsStep
  split
  · exact nodup_grantsLoop _ _ h
  · exact h

theorem nodup_countriesStep (rec : Val) {p : List (String × Val)}
    (h : (p.map Prod.fst).Nodup) : ((countriesStep rec p).map Prod.fst).Nodup := by
  unfold countriesStep
  split
  · split
    · exact nodup_keys_setKey _ _ h
    · exact h
  · exact h

theorem nodup_assignDisplay :
    ∀ (groups : List (String × List Val)) {p : List (String × Val)},
      (p.map Prod.fst).Nodup → ((assignDisplay p groups).map Prod.fst).Nodup := by
  intro groups
  induction groups with
  | nil => intro p h; exact h
  | cons pv rest ih =>
    intro p h
    obtain ⟨path, vs⟩ := pv
    show ((match joinVals vs with
      | some s => assignDisplay (setKey p (dotsToUnderscores path) (.str s)) rest
      | none => p).map Prod.fst).Nodup
    cases joinVals vs with
    | none => exact h
    | some s => exact ih (nodup_keys_setKey _ _ h)

theorem nodup_displayStep (rec : Val) {p : List (String × Val)}
    (h : (p.map Prod.fst).Nodup) : ((displayStep rec p).map Prod.fst).Nodup := by
  unfold displayStep
  exact nodup_assignDisplay _ h

theorem nodup_abstractStep (rec : Val) {p : List (String × Val)}
    (h : (p.map Prod.fst).Nodup) : ((abstractStep rec p).map Prod.fst).Nodup := by
  unfold abstractStep
  split
  · split
    · exact nodup_keys_setKey _ _ h
    · exact h
  · exact h

theorem parsedData_nodup (rec : Val) (b : Bool) :
    ((parsedData rec b).map Prod.fst).Nodup := by
  simp only [parsedData]
  have base : ((displayStep rec (countriesStep rec (grantsStep rec (openAccessStep rec
      (percentilesStep rec (pubDateStep rec (primaryLocationStep rec (countsStep rec
        (apcStep rec (idsStep rec (basicStep rec []))))))))))).map Prod.fst).Nodup := by
    apply nodup_displayStep
    apply nodup_countriesStep
    apply nodup_grantsStep
    apply nodup_openAccessStep
    apply nodup_percentilesStep
    apply nodup_pubDateStep
    apply nodup_primaryLocationStep
    apply nodup_countsStep
    apply nodup_apcStep
    apply nodup_idsStep
    apply nodup_basicStep
    simp
  cases b with
  | true =>
    rw [if_pos rfl]
    exact nodup_abstractStep _ base
  | false =>
    rw [if_neg (by simp)]
    exact base

/-! The fixed plain keys are untouched by index-merging: no other key in
the accumulated dict can normalize onto them. -/

theorem fixed_not_indexed : ∀ k ∈ fixedPlainKeys, containsIndexS k = false := by decide

theorem fixed_no_percentiles_pre :
    ∀ t ∈ fixedPlainKeys, ¬("percentiles_".data <+: t.data) := by decide

theorem fixed_no_grants_pre :
    ∀ t ∈ fixedPlainKeys, ¬("grants".data <+: t.data) := by decide

theorem fixed_no_marker :
    ∀ t ∈ fixedPlainKeys,
      ¬("authorships".data <:+: t.data) ∧ ¬("topics".data <:+: t.data) ∧
        ¬("keywords".data <:+: t.data) ∧
        ¬("sustainable_development_goals".data <:+: t.data) := by decide

theorem keyshape_strip_fixed {t : String} (ht : t ∈ fixedPlainKeys) {k : String}
    (hs : KeyShape k) (heq : stripS k = t) : k = t := by
  rcases hs with hk | ⟨s, hk⟩ | ⟨s, hk⟩ | ⟨-, hm⟩
  · rw [stripS_of_not_contains (fixed_not_indexed k hk)] at heq
    exact heq
  · subst hk
    rw [stripS_clean_append _ _ (by decide)] at heq
    exact absurd heq (append_ne_of_not_pref (fixed_no_percentiles_pre t ht) _)
  · subst hk
    rw [stripS_clean_append _ _ (by decide)] at heq
    exact absurd heq (append_ne_of_not_pref (fixed_no_grants_pre t ht) _)
  · exfalso
    obtain ⟨hm1, hm2, hm3, hm4⟩ := fixed_no_marker t ht
    have hdata : (stripS k).data = stripIdx k.data := rfl
    rcases hm with hm | hm | hm | hm
    · exact hm1 (by rw [← heq, hdata]; exact infix_stripIdx (by decide) (by decide) hm)
    · exact hm2 (by rw [← heq, hdata]; exact infix_stripIdx (by decide) (by decide) hm)
    · exact hm3 (by rw [← heq, hdata]; exact infix_stripIdx (by decide) (by decide) hm)
    · exact hm4 (by rw [← heq, hdata]; exact infix_stripIdx (by decide) (by decide) hm)

/-- The central bridge: for one of the fixed plain keys, the merged
output agrees with the accumulated dict (no other key merges onto it,
and a singleton set passes its value through unchanged). -/
theorem parseWork_lookup_fixed {rec : Val} {b : Bool} {m : List (String × Val)}
    (h : parseWork rec b = .ok m) {t : String} (ht : t ∈ fixedPlainKeys) :
    pyGet m t = pyGet (parsedData rec b) t := by
  have hml := mergeLookup h t
  cases hv : pyGet (parsedData rec b) t with
  | some v =>
    have hmem : (t, v) ∈ parsedData rec b := pyGet_mem hv
    have honly : ∀ kv ∈ parsedData rec b, stripS kv.1 = t → kv.1 = t :=
      fun kv hkv hs => keyshape_strip_fixed ht (parsedData_shape rec b kv hkv) hs
    have hfil := filter_contrib_eq_single hmem (parsedData_nodup rec b) honly
      (stripS_of_not_contains (fixed_not_indexed t ht))
    obtain ⟨w, hw1, hw2⟩ := hml.2 [v] (accValsFrom_plain_single _ t v hfil)
    rw [finalizeEntry_single] at hw1
    injection hw1 with hw1
    rw [hw2, hw1]
  | none =>
    have hfil : contribVals (parsedData rec b) t = [] := by
      simp only [contribVals, List.map_eq_nil_iff, List.filter_eq_nil_iff]
      intro kv hkv hc
      have hkt : kv.1 = t :=
        keyshape_strip_fixed ht (parsedData_shape rec b kv hkv) (by simpa using hc)
      rw [pyGet_eq_none_iff] at hv
      exact hv (hkt ▸ List.mem_map_of_mem Prod.fst hkv)
    exact hml.1 ((accValsFrom_none_iff _ t).mpr hfil)

/-! ## Claim C1 -/

/-- The record of claim C1's failing input: a malformed `title` holding
a list. -/
def c1Rec : Val := .dict [("title", .list [])]

/-- Claim C1 (code bug): `parse_work` is *not* raise-free.  On a record
whose `title` is a list, every extraction step succeeds, but the final
`merge_and_deduplicate` call — the only part of `parse_work` outside a
`try/except` — evaluates `{value}` on the unhashable list and raises
`TypeError`, for either value of `include_abstract`. -/
theorem parse_work_raises_on_unhashable_title :
    parseWork c1Rec false = .error () ∧ parseWork c1Rec true = .error () :=
  ⟨rfl, rfl⟩

/-! ## Claim C2, counterexample -/

/-- Two topics whose display names are out of lexicographic order. -/
def c2Rec : Val :=
  .dict [("topics", .list [.dict [("display_name", .str "b")],
                           .dict [("display_name", .str "a")]])]

/-- Counterexample to claim C2 as stated: the discovered display names
are `"b"` then `"a"` (encounter order), but the emitted value is the
lexicographically sorted `"a|b"`, not the encounter-order `"b|a"` —
the flat keys still carry `[i]` indices, so the final merge sorts and
deduplicates them like every other indexed field. -/
theorem display_names_sorted_counterexample :
    parseLookup c2Rec false "topics_display_name" = some (.str "a|b") ∧
    parseLookup c2Rec false "topics_display_name" ≠ some (.str "b|a") := by
  have h : parseLookup c2Rec false "topics_display_name" = some (.str "a|b") := rfl
  refine ⟨h, ?_⟩
  rw [h]
  intro hc
  injection hc with hc
  injection hc with hc
  exact absurd hc (by decide)

/-! ## Claim C3 -/

/-- A record with fifteen nested author display names (ascending, so
that the sorting applied by the merge is order-preserving and the
output directly exhibits all fifteen values). -/
def c3Rec : Val :=
  .dict [("authorships", .list
    ((List.range 15).map (fun i =>
      .dict [("author", .dict [("display_name",
        .str ("n" ++ (if i + 1 < 10 then "0" else "") ++ toString (i + 1)))])])))]

/-- Claim C3 (code bug): the "first 10" cap never fires for a record
with fifteen authorships, because the cap is applied per discovered
*path* and the fifteen paths `authorships[i].author.display_name` are
pairwise distinct, each collecting a single value.  The output contains
all fifteen names (sorted and deduplicated by the merge), not the first
ten. -/
theorem fifteen_authors_cap_ineffective :
    parseLookup c3Rec false "authorships_author_display_name" =
      some (.str "n01|n02|n03|n04|n05|n06|n07|n08|n09|n10|n11|n12|n13|n14|n15") ∧
    parseLookup c3Rec false "authorships_author_display_name" ≠
      some (.str "n01|n02|n03|n04|n05|n06|n07|n08|n09|n10") := by
  have h : parseLookup c3Rec false "authorships_author_display_name" =
      some (.str "n01|n02|n03|n04|n05|n06|n07|n08|n09|n10|n11|n12|n13|n14|n15") := rfl
  refine ⟨h, ?_⟩
  rw [h]
  intro hc
  injection hc with hc
  injection hc with hc
  exact absurd hc (by decide)

/-! ## Claim C4, counterexample -/

def c4Rec : Val := .dict [("publication_date", .str "not-a-date")]

/-- Counterexample to claim C4 as stated: on an unparseable (truthy)
date string the key `publication_date` is *present and bound to None*
in the output — `convert_publication_date` returns `None` and
`parse_work` assigns it — rather than absent. -/
theorem publication_date_failure_yields_none :
    parseLookup c4Rec false "publication_date" = some .null ∧
    parseLookup c4Rec false "publication_date" ≠ none := by
  have h : parseLookup c4Rec false "publication_date" = some .null := rfl
  exact ⟨h, by rw [h]; simp⟩

/-! ## Claim C8, counterexample -/

/-- Counterexample to claim C8 as stated: on the empty record the
enumerated scalar fields are *present* in the output, bound to `None`
(`''` for `doi`) — `work_data.get(field)` always assigns — rather than
absent. -/
theorem missing_title_yields_none_counterexample :
    parseLookup (.dict []) false "title" = some .null ∧
    parseLookup (.dict []) false "doi" = some (.str "") ∧
    parseLookup (.dict []) false "title" ≠ none := by
  refine ⟨rfl, rfl, ?_⟩
  have h : parseLookup (.dict []) false "title" = some .null := rfl
  rw [h]
  simp

/-! ## Lookups of the fixed fields in the accumulated dict -/

theorem basicStep_lookup (fs p : List (String × Val)) :
    ∀ f ∈ basicFields, pyGet (basicStep (.dict fs) p) f =
      some ((pyGet fs f).getD (if f = "doi" then .str "" else .null)) := by
  intro f hf
  fin_cases hf <;>
    simp [basicStep, basicFields, getAttr, pyGet_setKey_self, pyGet_setKey_ne]

/-- Conditions under which the steps following the basic-fields loop
leave a key untouched; they hold for each basic field. -/
theorem basic_fields_untouched :
    ∀ f ∈ basicFields,
      f ≠ "pmid" ∧ f ≠ "mag" ∧ f ≠ "apc_paid" ∧ f ∉ countFields ∧
      f ≠ "primary_location_display_name" ∧
      f ≠ "primary_location_host_organization_name" ∧ f ≠ "publication_date" ∧
      ¬("percentiles_".data <+: f.data) ∧ f ≠ "open_access_is_oa" ∧
      f ≠ "open_access_oa_status" ∧ ¬("grants".data <+: f.data) ∧
      f ≠ "countries_codes" ∧ ¬("display_name".data <:+: f.data) ∧
      f ≠ "abstract" := by decide

theorem parsedData_lookup_basic (fs : List (String × Val)) (b : Bool) :
    ∀ f ∈ basicFields, pyGet (parsedData (.dict fs) b) f =
      some ((pyGet fs f).getD (if f = "doi" then .str "" else .null)) := by
  intro f hf
  obtain ⟨h1, h2, h3, h4, h5, h6, h7, h8, h9, h10, h11, h12, h13, h14⟩ :=
    basic_fields_untouched f hf
  simp only [parsedData]
  have hrest : ∀ q : List (String × Val),
      pyGet (displayStep (.dict fs) (countriesStep (.dict fs) (grantsStep (.dict fs)
        (openAccessStep (.dict fs) (percentilesStep (.dict fs) (pubDateStep (.dict fs)
          (primaryLocationStep (.dict fs) (countsStep (.dict fs) (apcStep (.dict fs)
            (idsStep (.dict fs) q)))))))))) f = pyGet q f := by
    intro q
    rw [displayStep_preserve _ _ _ h13, countriesStep_preserve _ _ _ h12,
      grantsStep_preserve _ _ _ h11, openAccessStep_preserve _ _ _ h9 h10,
      percentilesStep_preserve _ _ _ h8, pubDateStep_preserve _ _ _ h7,
      primaryLocationStep_preserve _ _ _ h5 h6, countsStep_preserve _ _ _ h4,
      apcStep_preserve _ _ _ h3, idsStep_preserve _ _ _ h1 h2]
  cases b with
  | true =>
    rw [if_pos rfl, abstractStep_preserve _ _ _ h14, hrest, basicStep_lookup fs [] f hf]
  | false =>
    rw [if_neg (by simp), hrest, basicStep_lookup fs [] f hf]

theorem apc_untouched :
    ("apc_paid" : String) ∉ countFields ∧
      ¬("percentiles_".data <+: "apc_paid".data) ∧
      ¬("grants".data <+: "apc_paid".data) ∧
      ¬("display_name".data <:+: "apc_paid".data) := by decide

theorem apcStep_lookup (fs p : List (String × Val)) :
    pyGet (apcStep (.dict fs) p) "apc_paid" =
      some (match (pyGet fs "apc_paid").getD .null with
            | .dict sub => (pyGet sub "value_usd").getD .null
            | v => v) := by
  show pyGet (match getAttr (.dict fs) "apc_paid" .null with
    | some (.dict sub) => setKey p "apc_paid" ((pyGet sub "value_usd").getD .null)
    | some v => setKey p "apc_paid" v
    | none => p) "apc_paid" = _
  have hga : getAttr (.dict fs) "apc_paid" .null = some ((pyGet fs "apc_paid").getD .null) :=
    rfl
  rw [hga]
  cases (pyGet fs "apc_paid").getD .null with
  | dict sub => exact pyGet_setKey_self _ _ _
  | null => exact pyGet_setKey_self _ _ _
  | bool b => exact pyGet_setKey_self _ _ _
  | int n => exact pyGet_setKey_self _ _ _
  | str s => exact pyGet_setKey_self _ _ _
  | list xs => exact pyGet_setKey_self _ _ _

theorem parsedData_lookup_apc (fs : List (String × Val)) (b : Bool) :
    pyGet (parsedData (.dict fs) b) "apc_paid" =
      some (match (pyGet fs "apc_paid").getD .null with
            | .dict sub => (pyGet sub "value_usd").getD .null
            | v => v) := by
  obtain ⟨h4, h8, h11, h13⟩ := apc_untouched
  simp only [parsedData]
  have hrest : ∀ q : List (String × Val),
      pyGet (displayStep (.dict fs) (countriesStep (.dict fs) (grantsStep (.dict fs)
        (openAccessStep (.dict fs) (percentilesStep (.dict fs) (pubDateStep (.dict fs)
          (primaryLocationStep (.dict fs) (countsStep (.dict fs) q)))))))) "apc_paid" =
      pyGet q "apc_paid" := by
    intro q
    rw [displayStep_preserve _ _ _ h13, countriesStep_preserve _ _ _ (by decide),
      grantsStep_preserve _ _ _ h11, openAccessStep_preserve _ _ _ (by decide) (by decide),
      percentilesStep_preserve _ _ _ h8, pubDateStep_preserve _ _ _ (by decide),
      primaryLocationStep_preserve _ _ _ (by decide) (by decide),
      countsStep_preserve _ _ _ h4]
  cases b with
  | true =>
    rw [if_pos rfl, abstractStep_preserve _ _ _ (by decide), hrest, apcStep_lookup]
  | false =>
    rw [if_neg (by simp), hrest, apcStep_lookup]

theorem pubdate_untouched :
    ¬("percentiles_".data <+: "publication_date".data) ∧
      ¬("grants".data <+: "publication_date".data) ∧
      ¬("display_name".data <:+: "publication_date".data) := by decide

theorem pubDateStep_lookup (fs p : List (String × Val)) (s : String)
    (hv : pyGet fs "publication_date" = some (.str s)) (hne : s ≠ "") :
    pyGet (pubDateStep (.dict fs) p) "publication_date" =
      some (match convertPublicationDate s with
            | some t => .str t
            | none => .null) := by
  have hga : getAttr (.dict fs) "publication_date" .null = some (.str s) := by
    show some ((pyGet fs "publication_date").getD .null) = _
    rw [hv]
    rfl
  show pyGet (match getAttr (.dict fs) "publication_date" .null with
    | some v => if v.truthy then (match v with
        | .str s => setKey p "publication_date"
            (match convertPublicationDate s with
             | some t => Val.str t
             | none => .null)
        | _ => p) else p
    | none => p) "publication_date" = _
  rw [hga]
  have htr : Val.truthy (.str s) = true := by
    have hie : s.isEmpty = false := by
      cases he : s.isEmpty
      · rfl
      · exact absurd ((String.isEmpty_iff s).mp he) hne
    simp [Val.truthy, hie]
  simp only [htr, if_true]
  exact pyGet_setKey_self _ _ _

theorem parsedData_lookup_pubdate (fs : List (String × Val)) (b : Bool) (s : String)
    (hv : pyGet fs "publication_date" = some (.str s)) (hne : s ≠ "") :
    pyGet (parsedData (.dict fs) b) "publication_date" =
      some (match convertPublicationDate s with
            | some t => .str t
            | none => .null) := by
  obtain ⟨h8, h11, h13⟩ := pubdate_untouched
  simp only [parsedData]
  have hrest : ∀ q : List (String × Val),
      pyGet (displayStep (.dict fs) (countriesStep (.dict fs) (grantsStep (.dict fs)
        (openAccessStep (.dict fs) (percentilesStep (.dict fs) q))))) "publication_date" =
      pyGet q "publication_date" := by
    intro q
    rw [displayStep_preserve _ _ _ h13, countriesStep_preserve _ _ _ (by decide),
      grantsStep_preserve _ _ _ h11, openAccessStep_preserve _ _ _ (by decide) (by decide),
      percentilesStep_preserve _ _ _ h8]
  cases b with
  | true =>
    rw [if_pos rfl, abstractStep_preserve _ _ _ (by decide), hrest,
      pubDateStep_lookup _ _ s hv hne]
  | false =>
    rw [if_neg (by simp), hrest, pubDateStep_lookup _ _ s hv hne]

/-! ## Claim C8, amended -/

/-- Claim C8 as amended: each enumerated top-level scalar field present
in the input is copied verbatim into the output of `parse_work`; a
missing field is emitted bound to `None` (empty string for `doi`)
rather than being absent, and no error is raised by these steps. -/
theorem basic_fields_passthrough (fs : List (String × Val)) (b : Bool)
    (m : List (String × Val)) (h : parseWork (.dict fs) b = .ok m) :
    ∀ f ∈ basicFields,
      (∀ v, pyGet fs f = some v → pyGet m f = some v) ∧
      (pyGet fs f = none → pyGet m f = some (if f = "doi" then .str "" else .null)) := by
  intro f hf
  have hfx : f ∈ fixedPlainKeys := by
    simp only [fixedPlainKeys, List.mem_append]
    tauto
  have hlk := parseWork_lookup_fixed h hfx
  have hpd := parsedData_lookup_basic fs b f hf
  constructor
  · intro v hv
    rw [hlk, hpd, hv]
    rfl
  · intro hv
    rw [hlk, hpd, hv]
    rfl

/-- Witness for the amended claim C8 at a concrete record: a present
`title` is copied verbatim and a missing `language` is bound to
`None`. -/
theorem basic_fields_passthrough_witness :
    pyGet (okOr (parseWork (.dict [("title", .str "T")]) false) []) "title" =
      some (.str "T") ∧
    pyGet (okOr (parseWork (.dict [("title", .str "T")]) false) []) "language" =
      some .null := by
  have h : parseWork (.dict [("title", .str "T")]) false =
      .ok (okOr (parseWork (.dict [("title", .str "T")]) false) []) := rfl
  exact ⟨(basic_fields_passthrough _ false _ h "title" (by decide)).1 _ rfl,
    (basic_fields_passthrough _ false _ h "language" (by decide)).2 rfl⟩

/-! ## Claim C9 -/

/-- Claim C9: the cost field `apc_paid` is normalized by shape, not by
truthiness — a nested dict yields its `value_usd` sub-value, and a raw
(non-dict) value is copied verbatim, so a raw `0` is preserved. -/
theorem apc_paid_normalization (fs : List (String × Val)) (b : Bool)
    (m : List (String × Val)) (h : parseWork (.dict fs) b = .ok m) :
    (∀ sub v, pyGet fs "apc_paid" = some (.dict sub) →
      pyGet sub "value_usd" = some v → pyGet m "apc_paid" = some v) ∧
    (∀ n : Int, pyGet fs "apc_paid" = some (.int n) →
      pyGet m "apc_paid" = some (.int n)) := by
  have hlk := parseWork_lookup_fixed h (t := "apc_paid") (by decide)
  have hpd := parsedData_lookup_apc fs b
  constructor
  · intro sub v hv hv2
    rw [hlk, hpd, hv]
    simp only [Option.getD_some]
    rw [hv2]
    rfl
  · intro n hv
    rw [hlk, hpd, hv]
    rfl

/-- Witness for claim C9 at concrete records: a raw `0` cost survives
verbatim, and a nested cost yields its normalized sub-value. -/
theorem apc_paid_normalization_witness :
    pyGet (okOr (parseWork (.dict [("apc_paid", .int 0)]) false) []) "apc_paid" =
      some (.int 0) ∧
    pyGet (okOr (parseWork
        (.dict [("apc_paid", .dict [("value_usd", .int 350)])]) false) []) "apc_paid" =
      some (.int 350) := by
  have h1 : parseWork (.dict [("apc_paid", .int 0)]) false =
      .ok (okOr (parseWork (.dict [("apc_paid", .int 0)]) false) []) := rfl
  have h2 : parseWork (.dict [("apc_paid", .dict [("value_usd", .int 350)])]) false =
      .ok (okOr (parseWork
        (.dict [("apc_paid", .dict [("value_usd", .int 350)])]) false) []) := rfl
  exact ⟨(apc_paid_normalization _ false _ h1).2 0 rfl,
    (apc_paid_normalization _ false _ h2).1 _ _ rfl rfl⟩

/-! ## Round trip between formatting and strict `%Y-%m-%d` parsing -/

theorem digitC_isDigit (n : Nat) : (digitC n).isDigit = true := by
  unfold digitC
  have h : n % 10 < 10 := Nat.mod_lt _ (by decide)
  generalize hg : n % 10 = r
  rw [hg] at h
  interval_cases r <;> rfl

theorem charVal_digitC (n : Nat) : charVal (digitC n) = n % 10 := by
  unfold digitC
  have h : n % 10 < 10 := Nat.mod_lt _ (by decide)
  generalize hg : n % 10 = r
  rw [hg] at h
  interval_cases r <;> rfl

theorem parseYear4_pad4 (y : Nat) (hy : y ≤ 9999) (rest : List Char) :
    parseYear4 ((pad4 y).data ++ rest) = some (y, rest) := by
  show parseYear4
    (digitC (y / 1000) :: digitC (y / 100) :: digitC (y / 10) :: digitC y :: rest) = _
  simp only [parseYear4]
  rw [if_pos ⟨digitC_isDigit _, digitC_isDigit _, digitC_isDigit _, digitC_isDigit _⟩]
  simp only [charVal_digitC]
  have : ((y / 1000 % 10 * 10 + y / 100 % 10) * 10 + y / 10 % 10) * 10 + y % 10 = y := by
    omega
  rw [this]

theorem parseMonth_pad2 (m : Nat) (h1 : 1 ≤ m) (h2 : m ≤ 12) (rest : List Char) :
    parseMonth ((pad2 m).data ++ rest) = some (m, rest) := by
  interval_cases m <;> rfl

theorem parseDay_pad2 (d : Nat) (h1 : 1 ≤ d) (h2 : d ≤ 31) (rest : List Char) :
    parseDay ((pad2 d).data ++ rest) = some (d, rest) := by
  interval_cases d <;> rfl

theorem daysInMonth_le (y m : Nat) : daysInMonth y m ≤ 31 := by
  unfold daysInMonth
  split
  · split <;> decide
  · split <;> decide

theorem parseDate_fmtDate (y m d : Nat) (hy1 : 1 ≤ y) (hy2 : y ≤ 9999)
    (hm1 : 1 ≤ m) (hm2 : m ≤ 12) (hd1 : 1 ≤ d) (hd2 : d ≤ daysInMonth y m) :
    parseDate (fmtDate y m d) = some (y, m, d) := by
  have hd31 : d ≤ 31 := le_trans hd2 (daysInMonth_le y m)
  have hdata : (fmtDate y m d).data =
      (pad4 y).data ++ '-' :: ((pad2 m).data ++ '-' :: ((pad2 d).data ++ [])) := by
    simp [fmtDate, String.data_append, List.append_assoc]
  unfold parseDate
  rw [hdata, parseYear4_pad4 y hy2]
  simp only [parseMonth_pad2 m hm1 hm2, parseDay_pad2 d hd1 hd31]
  rw [if_neg (by omega)]

theorem convertPublicationDate_fmtDate (y m d : Nat) (hy1 : 1 ≤ y) (hy2 : y ≤ 9999)
    (hm1 : 1 ≤ m) (hm2 : m ≤ 12) (hd1 : 1 ≤ d) (hd2 : d ≤ daysInMonth y m) :
    convertPublicationDate (fmtDate y m d) =
      some (fmtDate y m d ++ "T00:00:00Z") := by
  unfold convertPublicationDate
  rw [parseDate_fmtDate y m d hy1 hy2 hm1 hm2 hd1 hd2]
  rfl

/-! ## Claim C4, amended -/

/-- Claim C4 as amended: a string of the exact form `YYYY-MM-DD` (valid
calendar date) is normalized to the same date suffixed `T00:00:00Z`; a
truthy string that fails to parse makes the `publication_date` key
*present and bound to None* in the output (not absent, and no error is
raised). -/
theorem publication_date_normalization (fs : List (String × Val)) (b : Bool)
    (m : List (String × Val)) (h : parseWork (.dict fs) b = .ok m) (s : String)
    (hv : pyGet fs "publication_date" = some (.str s)) (hne : s ≠ "") :
    (∀ t, convertPublicationDate s = some t →
      pyGet m "publication_date" = some (.str t)) ∧
    (convertPublicationDate s = none → pyGet m "publication_date" = some .null) ∧
    (∀ y mo d : Nat, 1 ≤ y → y ≤ 9999 → 1 ≤ mo → mo ≤ 12 → 1 ≤ d →
      d ≤ daysInMonth y mo →
      convertPublicationDate (fmtDate y mo d) =
        some (fmtDate y mo d ++ "T00:00:00Z")) := by
  have hlk := parseWork_lookup_fixed h (t := "publication_date") (by decide)
  have hpd := parsedData_lookup_pubdate fs b s hv hne
  refine ⟨?_, ?_, fun y mo d hy1 hy2 hm1 hm2 hd1 hd2 =>
    convertPublicationDate_fmtDate y mo d hy1 hy2 hm1 hm2 hd1 hd2⟩
  · intro t ht
    rw [hlk, hpd, ht]
  · intro ht
    rw [hlk, hpd, ht]

/-- Witness for the amended claim C4: `"2021-03-05"` normalizes to
`"2021-03-05T00:00:00Z"`, and `"not-a-date"` yields the key bound to
`None`. -/
theorem publication_date_normalization_witness :
    pyGet (okOr (parseWork (.dict [("publication_date", .str "2021-03-05")]) false) [])
      "publication_date" = some (.str "2021-03-05T00:00:00Z") ∧
    pyGet (okOr (parseWork (.dict [("publication_date", .str "not-a-date")]) false) [])
      "publication_date" = some .null ∧
    fmtDate 2021 3 5 = "2021-03-05" := by
  have h1 : parseWork (.dict [("publication_date", .str "2021-03-05")]) false =
      .ok (okOr (parseWork (.dict [("publication_date", .str "2021-03-05")]) false) []) :=
    rfl
  have h2 : parseWork (.dict [("publication_date", .str "not-a-date")]) false =
      .ok (okOr (parseWork (.dict [("publication_date", .str "not-a-date")]) false) []) :=
    rfl
  refine ⟨(publication_date_normalization _ false _ h1 "2021-03-05" rfl (by decide)).1
    "2021-03-05T00:00:00Z" rfl,
    (publication_date_normalization _ false _ h2 "not-a-date" rfl (by decide)).2.1 rfl,
    rfl⟩

/-! ## Claim C6: abstract reconstruction

The claim-side description: the slot at position `i` holds the *last*
word (in dict order) among those whose recorded positions include `i`
(later placements overwrite earlier ones), and the result joins the
non-empty slots in positional order. -/

/-- The last word (in dict order) whose positions include `i`. -/
def lastWordAt (widx : List (String × List Nat)) (i : Nat) : Option String :=
  ((widx.filter (fun wp => decide (i ∈ wp.2))).getLast?).map Prod.fst

def natMax (l : List Nat) : Nat := l.foldl max 0

/-- The claim-side description of the reconstructed abstract. -/
def abstractSpec (widx : List (String × List Nat)) : String :=
  let len := natMax (widx.map (fun wp => natMax wp.2)) + 1
  String.intercalate " "
    (((List.range len).map (fun i => (lastWordAt widx i).getD "")).filter
      (fun w => !w.isEmpty))

/-- Encoding of a word → positions mapping as the embedded value. -/
def encodeIdx (widx : List (String × List Nat)) : List (String × Val) :=
  widx.map (fun wp => (wp.1, .list (wp.2.map (fun n => .int (Int.ofNat n)))))

def natsToInts (l : List Nat) : List Int := l.map Int.ofNat

/-- The decoded word → positions list produced by the `mapM` pass on an
encoded index. -/
def castWps (wps : List (String × List Nat)) : List (String × List Int) :=
  wps.map (fun wp => (wp.1, natsToInts wp.2))

def applyWrites (slots : List String) (ws : List (Nat × String)) : List String :=
  ws.foldl (fun sl e => sl.set e.1 e.2) slots

def wordWrites (wp : String × List Nat) : List (Nat × String) :=
  wp.2.map (fun n => (n, wp.1))

def allWrites (widx : List (String × List Nat)) : List (Nat × String) :=
  widx.flatMap wordWrites

def lastWrite (ws : List (Nat × String)) (i : Nat) : Option String :=
  ((ws.filter (fun e => e.1 = i)).getLast?).map Prod.snd

theorem getLast?_cons_or {α : Type} (a : α) (l : List α) :
    (a :: l).getLast? = l.getLast?.or (some a) := by
  cases l with
  | nil => rfl
  | cons b l' =>
    rw [List.getLast?_cons_cons]
    obtain ⟨x, hx⟩ := Option.isSome_iff_exists.mp
      ((List.getLast?_isSome (l := b :: l')).mpr (by simp))
    rw [hx]
    rfl

theorem lastWrite_nil (i : Nat) : lastWrite [] i = none := rfl

theorem lastWrite_cons (e : Nat × String) (rest : List (Nat × String)) (i : Nat) :
    lastWrite (e :: rest) i =
      if e.1 = i then (lastWrite rest i).or (some e.2) else lastWrite rest i := by
  simp only [lastWrite, List.filter_cons]
  by_cases hei : e.1 = i
  · rw [if_pos (by simpa using hei), if_pos hei, getLast?_cons_or]
    cases (rest.filter (fun e => e.1 = i)).getLast? with
    | none => rfl
    | some x => rfl
  · rw [if_neg (by simpa using hei), if_neg hei]

theorem lastWrite_append (a b : List (Nat × String)) (i : Nat) :
    lastWrite (a ++ b) i = (lastWrite b i).or (lastWrite a i) := by
  simp only [lastWrite, List.filter_append, List.getLast?_append]
  cases (b.filter (fun e => e.1 = i)).getLast? with
  | none =>
    cases (a.filter (fun e => e.1 = i)).getLast? with
    | none => rfl
    | some x => rfl
  | some x => rfl

theorem applyWrites_getElem? :
    ∀ (ws : List (Nat × String)) (slots : List String) (i : Nat),
      (∀ e ∈ ws, e.1 < slots.length) →
      (applyWrites slots ws)[i]? = (lastWrite ws i).or slots[i]? := by
  intro ws
  induction ws with
  | nil => intro slots i _; simp [applyWrites, lastWrite_nil]
  | cons e rest ih =>
    intro slots i hw
    show (applyWrites (slots.set e.1 e.2) rest)[i]? = _
    rw [ih _ i (fun e' he' => by
      rw [List.length_set]
      exact hw e' (List.mem_cons_of_mem _ he'))]
    rw [lastWrite_cons]
    by_cases hei : e.1 = i
    · rw [if_pos hei]
      subst hei
      rw [List.getElem?_set_self (hw e (List.mem_cons_self _ _))]
      rw [Option.or_assoc]
      congr 1
    · rw [if_neg hei, List.getElem?_set_ne hei]

theorem applyWrites_length (ws : List (Nat × String)) :
    ∀ slots : List String, (applyWrites slots ws).length = slots.length := by
  induction ws with
  | nil => intro slots; rfl
  | cons e rest ih =>
    intro slots
    show (applyWrites (slots.set e.1 e.2) rest).length = _
    rw [ih, List.length_set]

theorem lastWrite_wordWrites (wp : String × List Nat) (i : Nat) :
    lastWrite (wordWrites wp) i = if i ∈ wp.2 then some wp.1 else none := by
  obtain ⟨w, ps⟩ := wp
  induction ps with
  | nil => rfl
  | cons n rest ih =>
    show lastWrite ((n, w) :: (rest.map (fun n => (n, w)))) i = _
    rw [lastWrite_cons]
    by_cases hni : n = i
    · subst hni
      rw [if_pos rfl, if_pos (List.mem_cons_self _ _)]
      rw [show lastWrite (rest.map (fun n => (n, w))) n = _ from ih]
      by_cases hn : n ∈ rest
      · rw [if_pos hn]; rfl
      · rw [if_neg hn]; rfl
    · rw [if_neg hni]
      rw [show lastWrite (rest.map (fun n => (n, w))) i = _ from ih]
      by_cases hi : i ∈ rest
      · rw [if_pos hi, if_pos (List.mem_cons_of_mem _ hi)]
      · rw [if_neg hi, if_neg (by simp [hni, hi, List.mem_cons]; intro hc; exact hni hc.symm)]

theorem lastWrite_allWrites (widx : List (String × List Nat)) (i : Nat) :
    lastWrite (allWrites widx) i = lastWordAt widx i := by
  induction widx with
  | nil => rfl
  | cons wp rest ih =>
    rw [show allWrites (wp :: rest) = wordWrites wp ++ allWrites rest by
      simp [allWrites, List.flatMap_cons]]
    rw [lastWrite_append, ih, lastWrite_wordWrites]
    simp only [lastWordAt, List.filter_cons]
    by_cases hm : i ∈ wp.2
    · rw [if_pos hm, if_pos (by simpa using hm), getLast?_cons_or]
      cases (rest.filter (fun wp => decide (i ∈ wp.2))).getLast? with
      | none => rfl
      | some x => rfl
    · rw [if_neg hm, if_neg (by simpa using hm)]
      cases (rest.filter (fun wp => decide (i ∈ wp.2))).getLast? with
      | none => rfl
      | some x => rfl

theorem foldl_max_init (l : List Nat) : ∀ a : Nat, l.foldl max a = max a (natMax l) := by
  induction l with
  | nil => intro a; simp [natMax]
  | cons x rest ih =>
    intro a
    show rest.foldl max (max a x) = _
    rw [ih (max a x)]
    have : natMax (x :: rest) = max x (natMax rest) := by
      show rest.foldl max (max 0 x) = _
      rw [ih (max 0 x)]
      omega
    rw [this]
    omega

theorem le_natMax_of_mem {l : List Nat} {n : Nat} (h : n ∈ l) : n ≤ natMax l := by
  induction l with
  | nil => simp at h
  | cons x rest ih =>
    have hc : natMax (x :: rest) = max x (natMax rest) := by
      show rest.foldl max (max 0 x) = _
      rw [foldl_max_init]
      omega
    rcases List.mem_cons.mp h with h | h
    · subst h; omega
    · have := ih h
      omega

theorem maxInt_cons_cons (x : Int) (y : Int) (l : List Int) :
    maxInt (x :: y :: l) = max x (maxInt (y :: l)) := rfl

theorem natsToInts_cons (n : Nat) (rest : List Nat) :
    natsToInts (n :: rest) = Int.ofNat n :: natsToInts rest := rfl

theorem castWps_cons (wp : String × List Nat) (rest : List (String × List Nat)) :
    castWps (wp :: rest) = (wp.1, natsToInts wp.2) :: castWps rest := rfl

theorem maxInt_map_cast (l : List Nat) (h : l ≠ []) :
    maxInt (natsToInts l) = Int.ofNat (natMax l) := by
  induction l with
  | nil => exact absurd rfl h
  | cons x rest ih =>
    cases rest with
    | nil =>
      show Int.ofNat x = Int.ofNat (natMax [x])
      have hx : natMax [x] = x := by
        show max 0 x = x
        omega
      rw [hx]
    | cons y rest' =>
      have hc : natMax (x :: y :: rest') = max x (natMax (y :: rest')) := by
        show (y :: rest').foldl max (max 0 x) = _
        rw [foldl_max_init]
        omega
      rw [natsToInts_cons, natsToInts_cons, maxInt_cons_cons,
        ← natsToInts_cons y rest', ih (by simp), hc]
      simp only [Int.ofNat_eq_natCast]
      omega

theorem mapM_intOfVal_cast (ps : List Nat) :
    (ps.map (fun n => Val.int (Int.ofNat n))).mapM intOfVal = some (natsToInts ps) := by
  induction ps with
  | nil => rfl
  | cons n rest ih =>
    rw [show (n :: rest).map (fun n => Val.int (Int.ofNat n)) =
      Val.int (Int.ofNat n) :: rest.map (fun n => Val.int (Int.ofNat n)) from rfl]
    rw [List.mapM_cons, ih]
    rfl

theorem mapM_encodeIdx (widx : List (String × List Nat)) :
    (encodeIdx widx).mapM (fun wp => (intListOfVal wp.2).map ((wp.1, ·))) =
      some (castWps widx) := by
  induction widx with
  | nil => rfl
  | cons wp rest ih =>
    rw [show encodeIdx (wp :: rest) =
      (wp.1, Val.list (wp.2.map (fun n => .int (Int.ofNat n)))) :: encodeIdx rest from rfl]
    rw [List.mapM_cons]
    rw [show intListOfVal (Val.list (wp.2.map (fun n => .int (Int.ofNat n)))) =
      (wp.2.map (fun n => Val.int (Int.ofNat n))).mapM intOfVal from rfl]
    rw [mapM_intOfVal_cast, ih]
    rfl

theorem assignWord_encode (len : Nat) (w : String) (ps : List Nat) :
    ∀ slots, (∀ n ∈ ps, n < len) →
      assignWord len w slots (natsToInts ps) =
        .ok (applyWrites slots (wordWrites (w, ps))) := by
  induction ps with
  | nil => intro slots _; rfl
  | cons n rest ih =>
    intro slots h
    rw [natsToInts_cons]
    simp only [assignWord]
    have h1 : ¬(Int.ofNat n < 0) := by
      simp only [Int.ofNat_eq_natCast]
      omega
    rw [if_neg h1]
    have h2 : (0 : Int) ≤ Int.ofNat n ∧ Int.ofNat n < (len : Int) := by
      have := h n (List.mem_cons_self _ _)
      simp only [Int.ofNat_eq_natCast]
      omega
    rw [if_pos h2, show (Int.ofNat n).toNat = n from rfl]
    exact ih _ (fun n' hn' => h n' (List.mem_cons_of_mem _ hn'))

theorem assignAll_encode (len : Nat) (wps : List (String × List Nat)) :
    ∀ slots, (∀ wp ∈ wps, ∀ n ∈ wp.2, n < len) →
      assignAll len slots (castWps wps) = .ok (applyWrites slots (allWrites wps)) := by
  induction wps with
  | nil => intro slots _; rfl
  | cons wp rest ih =>
    intro slots h
    rw [castWps_cons]
    have hw : assignWord len wp.1 slots (natsToInts wp.2) =
        .ok (applyWrites slots (wordWrites (wp.1, wp.2))) :=
      assignWord_encode len wp.1 wp.2 slots (h wp (List.mem_cons_self _ _))
    show (match assignWord len wp.1 slots (natsToInts wp.2) with
      | .ok slots2 => assignAll len slots2 (castWps rest)
      | .error e => Except.error e) = _
    rw [hw]
    show assignAll len (applyWrites slots (wordWrites (wp.1, wp.2))) (castWps rest) = _
    rw [ih _ (fun wp' hwp' => h wp' (List.mem_cons_of_mem _ hwp'))]
    rw [show allWrites (wp :: rest) = wordWrites (wp.1, wp.2) ++ allWrites rest by
      simp [allWrites, List.flatMap_cons]]
    rw [show applyWrites slots (wordWrites (wp.1, wp.2) ++ allWrites rest) =
      applyWrites (applyWrites slots (wordWrites (wp.1, wp.2))) (allWrites rest) from
        List.foldl_append ..]

theorem castWps_map_maxInt (widx : List (String × List Nat))
    (hpos : ∀ wp ∈ widx, wp.2 ≠ []) :
    (castWps widx).map (fun wp => maxInt wp.2) =
      natsToInts (widx.map (fun wp => natMax wp.2)) := by
  induction widx with
  | nil => rfl
  | cons wp rest ih =>
    rw [castWps_cons, List.map_cons]
    rw [show natsToInts ((wp :: rest).map (fun wp => natMax wp.2)) =
      Int.ofNat (natMax wp.2) :: natsToInts (rest.map (fun wp => natMax wp.2)) from rfl]
    rw [ih (fun w hw => hpos w (List.mem_cons_of_mem _ hw))]
    congr 1
    exact maxInt_map_cast wp.2 (hpos wp (List.mem_cons_self _ _))

theorem slots_characterization (widx : List (String × List Nat)) (len : Nat)
    (hb : ∀ wp ∈ widx, ∀ n ∈ wp.2, n < len) :
    applyWrites (List.replicate len "") (allWrites widx) =
      (List.range len).map (fun i => (lastWordAt widx i).getD "") := by
  have hw : ∀ e ∈ allWrites widx, e.1 < (List.replicate len "").length := by
    intro e he
    rw [List.length_replicate]
    simp only [allWrites, List.mem_flatMap] at he
    obtain ⟨wp, hwp, he⟩ := he
    simp only [wordWrites, List.mem_map] at he
    obtain ⟨n, hn, he⟩ := he
    rw [← he]
    exact hb wp hwp n hn
  have hlast_oob : ∀ i, len ≤ i → lastWrite (allWrites widx) i = none := by
    intro i hi
    have hfil : (allWrites widx).filter (fun e => e.1 = i) = [] := by
      rw [List.filter_eq_nil_iff]
      intro e he
      have := hw e he
      rw [List.length_replicate] at this
      simp only [decide_eq_true_eq]
      omega
    simp [lastWrite, hfil]
  apply List.ext_getElem?
  intro i
  rw [applyWrites_getElem? _ _ _ hw]
  by_cases hi : i < len
  · rw [List.getElem?_replicate_of_lt hi]
    rw [show ((List.range len).map fun i => (lastWordAt widx i).getD "")[i]? =
      some ((lastWordAt widx i).getD "") by
        rw [List.getElem?_map, List.getElem?_range hi]
        rfl]
    rw [lastWrite_allWrites]
    cases lastWordAt widx i with
    | none => rfl
    | some w => rfl
  · rw [hlast_oob i (by omega)]
    rw [List.getElem?_replicate, if_neg hi]
    rw [List.getElem?_map]
    rw [show (List.range len)[i]? = none by
      rw [List.getElem?_eq_none_iff]
      simpa using by omega]
    rfl

/-- Claim C6: the sentinel cases and the reconstruction algorithm.  On
an absent (`None`) or empty inverted index the sentinel is returned;
on a nonempty word → positions mapping (nonempty position lists), the
result places each word at each of its positions — later words
overwrite earlier ones at shared positions — and joins the non-empty
slots of the `(max position) + 1`-length sequence with single
spaces. -/
theorem extract_abstract_spec :
    (extractAbstract .null = .ok "No abstract available" ∧
      extractAbstract (.dict []) = .ok "No abstract available") ∧
    (∀ widx : List (String × List Nat), widx ≠ [] → (∀ wp ∈ widx, wp.2 ≠ []) →
      extractAbstract (.dict (encodeIdx widx)) = .ok (abstractSpec widx)) := by
  refine ⟨⟨rfl, rfl⟩, fun widx hne hpos => ?_⟩
  have htr : (Val.dict (encodeIdx widx)).truthy = true := by
    simp only [Val.truthy, encodeIdx]
    cases widx with
    | nil => exact absurd rfl hne
    | cons wp rest => rfl
  have hout : extractAbstract (.dict (encodeIdx widx)) =
      extractAbstractCore (encodeIdx widx) := by
    unfold extractAbstract
    rw [htr]
    rfl
  rw [hout]
  unfold extractAbstractCore
  rw [mapM_encodeIdx]
  have hany : (castWps widx).any (fun wp => wp.2.isEmpty) = false := by
    rw [List.any_eq_false]
    intro wp hwp
    simp only [castWps, List.mem_map] at hwp
    obtain ⟨wp', hwp', heq⟩ := hwp
    rw [← heq]
    have h2 := hpos wp' hwp'
    cases hc : wp'.2 with
    | nil => exact absurd hc h2
    | cons a l => simp [natsToInts, hc]
  have hb : ∀ wp ∈ widx, ∀ n ∈ wp.2, n < natMax (widx.map (fun wp => natMax wp.2)) + 1 := by
    intro wp hwp n hn
    have h1 : n ≤ natMax wp.2 := le_natMax_of_mem hn
    have h2 : natMax wp.2 ≤ natMax (widx.map (fun wp => natMax wp.2)) :=
      le_natMax_of_mem (List.mem_map_of_mem _ hwp)
    omega
  simp only [hany, Bool.false_eq_true, if_false]
  rw [castWps_map_maxInt widx hpos]
  rw [maxInt_map_cast _ (by simpa using hne)]
  rw [show (Int.ofNat (natMax (widx.map (fun wp => natMax wp.2))) + 1).toNat =
    natMax (widx.map (fun wp => natMax wp.2)) + 1 by
      simp only [Int.ofNat_eq_natCast]
      omega]
  rw [assignAll_encode _ widx _ hb, slots_characterization widx _ hb]
  rfl

/-- Witness for claim C6: the worked example from the specification. -/
theorem extract_abstract_spec_witness :
    extractAbstract (.dict [("The", .list [.int 0, .int 4]), ("cat", .list [.int 1]),
      ("sat", .list [.int 2]), ("on", .list [.int 3])]) = .ok "The cat sat on The" := by
  have h := extract_abstract_spec.2
    [("The", [0, 4]), ("cat", [1]), ("sat", [2]), ("on", [3])]
    (by decide) (by decide)
  exact h.trans (by rfl)

/-- Claim C10: on reaching a dict key containing `"display_name"`, the
traversal yields the pair (joined path, immediate value) and does not
descend into the value: the output of the dict step is exactly that
pair followed by whatever the remaining items yield, independent of the
value's contents, so a nested `display_name` key strictly inside the
value is never yielded. -/
theorem find_display_names_no_descent (k : String) (v : Val)
    (rest : List (String × Val)) (path : String)
    (h : strContains k "display_name" = true) :
    fdnFields ((k, v) :: rest) path = (joinPath path k, v) :: fdnFields rest path ∧
    ∀ p ∈ fdnFields ((k, v) :: rest) path,
      p = (joinPath path k, v) ∨ p ∈ fdnFields rest path := by
  have he : fdnFields ((k, v) :: rest) path =
      (joinPath path k, v) :: fdnFields rest path := by
    show (if strContains k "display_name" then [(joinPath path k, v)]
      else findDisplayNames v (joinPath path k)) ++ fdnFields rest path = _
    rw [h]
    rfl
  refine ⟨he, ?_⟩
  intro p hp
  rw [he] at hp
  exact List.mem_cons.mp hp

/-- Witness for claim C10: a `display_name` key nested inside the value
of another `display_name` key is not yielded. -/
theorem find_display_names_no_descent_witness :
    strContains "topics_display_name" "display_name" = true ∧
    fdnFields [("topics_display_name",
        Val.dict [("inner_display_name", Val.str "hidden")])] "" =
      [("topics_display_name", Val.dict [("inner_display_name", Val.str "hidden")])] := by
  have h : strContains "topics_display_name" "display_name" = true := by decide
  refine ⟨h, ?_⟩
  have he := (find_display_names_no_descent "topics_display_name"
    (Val.dict [("inner_display_name", Val.str "hidden")]) [] "" h).1
  rw [he]
  rfl

/-! ## Pagination lemmas for `list_all_resources` -/

theorem fetchLoop_all {α : Type} (fetch : Nat → Except Unit (List α))
    (pages : Nat → List α) :
    ∀ ps : List Nat, (∀ p ∈ ps, fetch p = .ok (pages p) ∧ pages p ≠ []) →
      fetchLoop fetch ps = (ps, ps.flatMap pages) := by
  intro ps
  induction ps with
  | nil => intro _; rfl
  | cons p rest ih =>
    intro h
    obtain ⟨hf, hne⟩ := h p (List.mem_cons_self _ _)
    show (match fetch p with
      | .error _ => ([p], [])
      | .ok [] => ([p], [])
      | .ok recs =>
        match fetchLoop fetch rest with
        | (qs, out) => (p :: qs, recs ++ out)) = _
    rw [hf]
    cases hpp : pages p with
    | nil => exact absurd hpp hne
    | cons a l =>
      rw [ih (fun q hq => (h q (List.mem_cons_of_mem _ hq)))]
      show (p :: rest, (a :: l) ++ rest.flatMap pages) = _
      rw [List.flatMap_cons, hpp]

theorem fetchLoop_prefix {α : Type} (fetch : Nat → Except Unit (List α))
    (pages : Nat → List α) :
    ∀ (a : List Nat) (k : Nat) (b : List Nat),
      (∀ p ∈ a, fetch p = .ok (pages p) ∧ pages p ≠ []) →
      (fetch k = .error () ∨ fetch k = .ok []) →
      fetchLoop fetch (a ++ k :: b) = (a ++ [k], a.flatMap pages) := by
  intro a
  induction a with
  | nil =>
    intro k b _ hk
    show (match fetch k with
      | .error _ => ([k], [])
      | .ok [] => ([k], [])
      | .ok recs =>
        match fetchLoop fetch b with
        | (qs, out) => (k :: qs, recs ++ out)) = _
    rcases hk with hk | hk
    · rw [hk]; rfl
    · rw [hk]; rfl
  | cons p rest ih =>
    intro k b h hk
    obtain ⟨hf, hne⟩ := h p (List.mem_cons_self _ _)
    show (match fetch p with
      | .error _ => ([p], [])
      | .ok [] => ([p], [])
      | .ok recs =>
        match fetchLoop fetch (rest ++ k :: b) with
        | (qs, out) => (p :: qs, recs ++ out)) = _
    rw [hf]
    cases hpp : pages p with
    | nil => exact absurd hpp hne
    | cons x l =>
      rw [ih k b (fun q hq => (h q (List.mem_cons_of_mem _ hq))) hk]
      show (p :: (rest ++ [k]), (x :: l) ++ rest.flatMap pages) = _
      rw [List.flatMap_cons, hpp]
      rfl

/-- Claim C7: `list_all_resources` derives the page count as
`ceil(total / per_page)` (first conjunct: the characteristic bounds of
the ceiling), requests pages `1..n` in order and concatenates their
results when every page succeeds nonempty (second conjunct), and on the
first failing or empty page stops, returning the records accumulated
from the earlier pages (third conjunct). -/
theorem list_all_resources_pagination {α : Type} (total perPage : Nat)
    (fetch : Nat → Except Unit (List α)) (pages : Nat → List α)
    (hp : 0 < perPage) (ht : 0 < total) :
    (total ≤ perPage * ((total + perPage - 1) / perPage) ∧
      perPage * ((total + perPage - 1) / perPage) < total + perPage) ∧
    ((∀ p ∈ List.range' 1 ((total + perPage - 1) / perPage),
        fetch p = .ok (pages p) ∧ pages p ≠ []) →
      listAllResources total perPage fetch =
        (List.range' 1 ((total + perPage - 1) / perPage),
         (List.range' 1 ((total + perPage - 1) / perPage)).flatMap pages)) ∧
    (∀ k b, List.range' 1 ((total + perPage - 1) / perPage) =
        List.range' 1 (k - 1) ++ k :: b →
      (∀ p ∈ List.range' 1 (k - 1), fetch p = .ok (pages p) ∧ pages p ≠ []) →
      (fetch k = .error () ∨ fetch k = .ok []) →
      listAllResources total perPage fetch =
        (List.range' 1 (k - 1) ++ [k], (List.range' 1 (k - 1)).flatMap pages)) := by
  have hopen : listAllResources total perPage fetch =
      fetchLoop fetch (List.range' 1 ((total + perPage - 1) / perPage)) := by
    show (if total = 0 then ([], []) else _) = _
    rw [if_neg (by omega)]
  refine ⟨?_, ?_, ?_⟩
  · have hdm := Nat.div_add_mod (total + perPage - 1) perPage
    have hmod := Nat.mod_lt (total + perPage - 1) hp
    omega
  · intro hall
    rw [hopen]
    exact fetchLoop_all fetch pages _ hall
  · intro k b hdec hsucc hk
    rw [hopen, hdec]
    exact fetchLoop_prefix fetch pages _ k b hsucc hk

/-- Witness for claim C7: the worked example from the specification —
`total = 25`, `per_page = 10` gives three pages; with every page
succeeding the three pages are concatenated in order, and with page 2
failing only page 1's records are returned. -/
theorem list_all_resources_pagination_witness :
    (0 < (10 : Nat)) ∧ (0 < (25 : Nat)) ∧
    listAllResources 25 10 (fun p => (Except.ok [p] : Except Unit (List Nat))) =
      ([1, 2, 3], [1, 2, 3]) ∧
    listAllResources 25 10
        (fun p => if p = 1 then (Except.ok [10] : Except Unit (List Nat))
          else .error ()) =
      ([1, 2], [10]) := by
  refine ⟨by decide, by decide, ?_, ?_⟩
  · have h := (list_all_resources_pagination 25 10
      (fun p => (Except.ok [p] : Except Unit (List Nat))) (fun p => [p])
      (by decide) (by decide)).2.1
      (fun p _ => ⟨rfl, List.cons_ne_nil _ _⟩)
    exact h.trans (by rfl)
  · have h := (list_all_resources_pagination 25 10
      (fun p => if p = 1 then (Except.ok [10] : Except Unit (List Nat))
        else .error ()) (fun p => [10 * p])
      (by decide) (by decide)).2.2 2 [3] (by rfl)
      (by
        intro p hp
        rw [show List.range' 1 (2 - 1) = [1] from rfl] at hp
        rw [List.mem_singleton.mp hp]
        exact ⟨rfl, by decide⟩)
      (Or.inl rfl)
    exact h.trans (by rfl)

/-! ## A record family for the display-name merge behaviour

`famRec fam` is a work record with every scalar field the extraction
steps read populated with a fixed string (so that every accumulated
value is a string), plus one top-level `topics_display_name[<tag>]`
key per element of `fam` (digit tags keep the keys in the indexed
display-name family).  The display-name phase collects these values in
encounter order under their indexed keys, and the final merge collapses
them into the single key `topics_display_name`. -/

def famKey (t : String) : String := "topics_display_name[" ++ t ++ "]"

def famEntries (fam : List (String × String)) : List (String × Val) :=
  fam.map (fun tv => (famKey tv.1, Val.str tv.2))

def famBase : List (String × Val) :=
  [("id", .str "W1"), ("doi", .str "D1"), ("title", .str "T1"),
   ("publication_year", .str "Y1"), ("language", .str "en"), ("type", .str "article"),
   ("ids", .dict [("pmid", .str "P1"), ("mag", .str "M1")]),
   ("apc_paid", .str "500"),
   ("referenced_works_count", .str "1"), ("cited_by_count", .str "2"),
   ("countries_distinct_count", .str "3"), ("institutions_distinct_count", .str "4"),
   ("locations_count", .str "5"), ("fwci", .str "6"),
   ("primary_location", .dict [("source", .dict [("display_name", .str "S1"),
     ("host_organization_name", .str "H1")])]),
   ("publication_date", .str "2021-03-05"),
   ("citation_normalized_percentile", .dict []),
   ("open_access", .dict [("is_oa", .str "true"), ("oa_status", .str "gold")]),
   ("grants", .list []),
   ("authorships", .list [])]

def famRec (fam : List (String × String)) : Val := .dict (famBase ++ famEntries fam)

/-- The dict accumulated by the ten pre-display steps on `famRec`. -/
def famPrefix : List (String × Val) :=
  [("id", .str "W1"), ("doi", .str "D1"), ("title", .str "T1"),
   ("publication_year", .str "Y1"), ("language", .str "en"), ("type", .str "article"),
   ("pmid", .str "P1"), ("mag", .str "M1"),
   ("apc_paid", .str "500"),
   ("referenced_works_count", .str "1"), ("cited_by_count", .str "2"),
   ("countries_distinct_count", .str "3"), ("institutions_distinct_count", .str "4"),
   ("locations_count", .str "5"), ("fwci", .str "6"),
   ("primary_location_display_name", .str "S1"),
   ("primary_location_host_organization_name", .str "H1"),
   ("publication_date", .str "2021-03-05T00:00:00Z"),
   ("open_access_is_oa", .str "true"), ("open_access_oa_status", .str "gold"),
   ("countries_codes", .str "")]

/-- `s.add(v)` on a Python set of strings. -/
def insertDedupStr (acc : List String) (s : String) : List String :=
  if acc.any (fun w => w == s) then acc else acc ++ [s]

/-- Deduplication of a string list keeping first occurrences. -/
def dedupStrs (l : List String) : List String := l.foldl insertDedupStr []

/-- Whether a value is a string. -/
def isStrB : Val → Bool
  | .str _ => true
  | _ => false

/-! ### Structure of the family keys -/

theorem famKey_data (t : String) :
    (famKey t).data = "topics_display_name[".data ++ (t.data ++ "]".data) := by
  show ("topics_display_name[" ++ t ++ "]").data = _
  rw [String.data_append, String.data_append, List.append_assoc]

theorem famKey_inj {t t' : String} (h : famKey t = famKey t') : t = t' := by
  have hd := congrArg String.data h
  rw [famKey_data, famKey_data] at hd
  exact String.ext (List.append_cancel_right (List.append_cancel_left hd))

theorem famKey_contains_display (t : String) :
    strContains (famKey t) "display_name" = true := by
  apply decide_eq_true
  rw [famKey_data]
  have h1 : "display_name".data <:+: "topics_display_name[".data := by decide
  exact h1.trans (List.prefix_append _ _).isInfix

theorem famKey_contains_topics (t : String) :
    strContains (famKey t) "topics" = true := by
  apply decide_eq_true
  rw [famKey_data]
  have h1 : "topics".data <:+: "topics_display_name[".data := by decide
  exact h1.trans (List.prefix_append _ _).isInfix

theorem keepPath_famKey (t : String) : keepPath (famKey t) = true := by
  simp [keepPath, famKey_contains_topics, famKey_contains_display]

theorem bracket_mem_famKey (t : String) : '[' ∈ (famKey t).data := by
  rw [famKey_data]
  exact List.mem_append.mpr (Or.inl (by decide))

theorem famKey_data_indexed (t : String) :
    (famKey t).data = "topics_display_name".data ++ '[' :: (t.data ++ ']' :: []) := by
  rw [famKey_data]
  rfl

theorem stripS_famKey (t : String) (hne : t.data ≠ [])
    (hd : ∀ c ∈ t.data, c.isDigit = true) :
    stripS (famKey t) = "topics_display_name" := by
  show (⟨stripIdx (famKey t).data⟩ : String) = _
  rw [famKey_data_indexed, stripIdx_indexed _ _ _ (by decide) hne hd]
  rfl

theorem containsIndexS_famKey (t : String) (hne : t.data ≠ [])
    (hd : ∀ c ∈ t.data, c.isDigit = true) :
    containsIndexS (famKey t) = true := by
  show containsIdx (famKey t).data = true
  rw [famKey_data_indexed]
  exact containsIdx_indexed _ _ _ hne hd

/-! ### The display-name phase on the family record -/

theorem famEntries_cons (tv : String × String) (rest : List (String × String)) :
    famEntries (tv :: rest) = (famKey tv.1, Val.str tv.2) :: famEntries rest := rfl

theorem fdnFields_append (a b : List (String × Val)) (path : String) :
    fdnFields (a ++ b) path = fdnFields a path ++ fdnFields b path := by
  induction a with
  | nil => rfl
  | cons kv rest ih =>
    obtain ⟨k, v⟩ := kv
    show (if strContains k "display_name" then [(joinPath path k, v)]
      else findDisplayNames v (joinPath path k)) ++ fdnFields (rest ++ b) path = _
    rw [ih]
    rw [show fdnFields ((k, v) :: rest) path =
      (if strContains k "display_name" then [(joinPath path k, v)]
        else findDisplayNames v (joinPath path k)) ++ fdnFields rest path from rfl]
    rw [List.append_assoc]

theorem fdnFields_famEntries (fam : List (String × String)) :
    fdnFields (famEntries fam) "" = famEntries fam := by
  induction fam with
  | nil => rfl
  | cons tv rest ih =>
    rw [famEntries_cons]
    show (if strContains (famKey tv.1) "display_name"
        then [(joinPath "" (famKey tv.1), Val.str tv.2)]
      else findDisplayNames (Val.str tv.2) (joinPath "" (famKey tv.1))) ++
        fdnFields (famEntries rest) "" = _
    rw [famKey_contains_display, ih]
    rfl

theorem addGroup_fresh (g : List (String × List Val)) (p : String) (v : Val)
    (h : ∀ q ∈ g, q.1 ≠ p) : addGroup g p v = g ++ [(p, [v])] := by
  induction g with
  | nil => rfl
  | cons qv rest ih =>
    obtain ⟨q, vs⟩ := qv
    show (if q = p then (q, vs ++ [v]) :: rest else (q, vs) :: addGroup rest p v) = _
    rw [if_neg (h (q, vs) (List.mem_cons_self _ _)),
      ih (fun q' hq' => h q' (List.mem_cons_of_mem _ hq'))]
    rfl

theorem fold_addGroup_famEntries (fam : List (String × String)) :
    ∀ g : List (String × List Val),
      (∀ tv ∈ fam, ∀ q ∈ g, q.1 ≠ famKey tv.1) →
      (fam.map Prod.fst).Nodup →
      (famEntries fam).foldl
        (fun g pv => if keepPath pv.1 then addGroup g pv.1 pv.2 else g) g =
      g ++ fam.map (fun tv => (famKey tv.1, [Val.str tv.2])) := by
  induction fam with
  | nil => intro g _ _; exact (List.append_nil g).symm
  | cons tv rest ih =>
    intro g hfresh hnd
    have hstep : (if keepPath (famKey tv.1, Val.str tv.2).1 = true then
        addGroup g (famKey tv.1, Val.str tv.2).1 (famKey tv.1, Val.str tv.2).2
      else g) = g ++ [(famKey tv.1, [Val.str tv.2])] := by
      show (if keepPath (famKey tv.1) = true
        then addGroup g (famKey tv.1) (Val.str tv.2) else g) = _
      rw [keepPath_famKey, if_pos rfl]
      exact addGroup_fresh g _ _ (hfresh tv (List.mem_cons_self _ _))
    have hnd' := hnd
    rw [List.map_cons, List.nodup_cons] at hnd'
    have hfr : ∀ tv' ∈ rest, ∀ q ∈ g ++ [(famKey tv.1, [Val.str tv.2])],
        q.1 ≠ famKey tv'.1 := by
      intro tv' htv' q hq
      rcases List.mem_append.mp hq with hq | hq
      · exact hfresh tv' (List.mem_cons_of_mem _ htv') q hq
      · rw [List.mem_singleton.mp hq]
        intro hc
        have h1 := famKey_inj hc
        exact hnd'.1 (by rw [h1]; exact List.mem_map_of_mem _ htv')
    rw [famEntries_cons, List.foldl_cons, hstep,
      ih (g ++ [(famKey tv.1, [Val.str tv.2])]) hfr hnd'.2, List.append_assoc]
    rfl

theorem capTen_famGroups (fam : List (String × String)) :
    capTen (fam.map (fun tv => (famKey tv.1, [Val.str tv.2]))) =
      fam.map (fun tv => (famKey tv.1, [Val.str tv.2])) := by
  unfold capTen
  rw [List.map_map]
  apply List.map_congr_left
  intro tv _
  rfl

theorem map_dot_id (cs : List Char) (h : ∀ c ∈ cs, c ≠ '.') :
    cs.map (fun c => if c = '.' then '_' else c) = cs := by
  induction cs with
  | nil => rfl
  | cons c rest ih =>
    rw [List.map_cons, if_neg (h c (List.mem_cons_self _ _)),
      ih (fun c' hc' => h c' (List.mem_cons_of_mem _ hc'))]

theorem dotsToUnderscores_famKey (t : String) (h : ∀ c ∈ t.data, c ≠ '.') :
    dotsToUnderscores (famKey t) = famKey t := by
  show (⟨(famKey t).data.map (fun c => if c = '.' then '_' else c)⟩ : String) = famKey t
  rw [map_dot_id _ ?hall]
  case hall =>
    intro c hc
    rw [famKey_data] at hc
    rcases List.mem_append.mp hc with hc | hc
    · intro he; subst he; revert hc; decide
    · rcases List.mem_append.mp hc with hc | hc
      · exact h c hc
      · intro he; subst he; revert hc; decide

theorem setKey_fresh {β : Type} (p : List (String × β)) (k : String) (v : β)
    (h : ∀ q ∈ p, q.1 ≠ k) : setKey p k v = p ++ [(k, v)] := by
  induction p with
  | nil => rfl
  | cons qv rest ih =>
    obtain ⟨q, w⟩ := qv
    show (if q = k then (k, v) :: rest else (q, w) :: setKey rest k v) = _
    rw [if_neg (h (q, w) (List.mem_cons_self _ _)),
      ih (fun q' hq' => h q' (List.mem_cons_of_mem _ hq'))]
    rfl

theorem joinVals_single_str (s : String) : joinVals [Val.str s] = some s := rfl

theorem assignDisplay_famGroups (fam : List (String × String)) :
    ∀ p : List (String × Val),
      (∀ tv ∈ fam, ∀ q ∈ p, q.1 ≠ famKey tv.1) →
      (fam.map Prod.fst).Nodup →
      (∀ tv ∈ fam, ∀ c ∈ tv.1.data, c ≠ '.') →
      assignDisplay p (fam.map (fun tv => (famKey tv.1, [Val.str tv.2]))) =
        p ++ famEntries fam := by
  induction fam with
  | nil => intro p _ _ _; exact (List.append_nil p).symm
  | cons tv rest ih =>
    intro p hfresh hnd hdots
    rw [List.map_cons]
    show (match joinVals [Val.str tv.2] with
      | some s => assignDisplay (setKey p (dotsToUnderscores (famKey tv.1)) (Val.str s))
          (rest.map (fun tv : String × String => (famKey tv.1, [Val.str tv.2])))
      | none => p) = _
    rw [joinVals_single_str]
    show assignDisplay (setKey p (dotsToUnderscores (famKey tv.1)) (Val.str tv.2))
      (rest.map (fun tv : String × String => (famKey tv.1, [Val.str tv.2]))) = _
    rw [dotsToUnderscores_famKey tv.1 (hdots tv (List.mem_cons_self _ _)),
      setKey_fresh p (famKey tv.1) (Val.str tv.2) (hfresh tv (List.mem_cons_self _ _))]
    have hnd' := hnd
    rw [List.map_cons, List.nodup_cons] at hnd'
    have hfr : ∀ tv' ∈ rest, ∀ q ∈ p ++ [(famKey tv.1, Val.str tv.2)],
        q.1 ≠ famKey tv'.1 := by
      intro tv' htv' q hq
      rcases List.mem_append.mp hq with hq | hq
      · exact hfresh tv' (List.mem_cons_of_mem _ htv') q hq
      · rw [List.mem_singleton.mp hq]
        intro hc
        have h1 := famKey_inj hc
        exact hnd'.1 (by rw [h1]; exact List.mem_map_of_mem _ htv')
    rw [ih (p ++ [(famKey tv.1, Val.str tv.2)]) hfr hnd'.2
      (fun tv' h' => hdots tv' (List.mem_cons_of_mem _ h')), List.append_assoc]
    rfl

/-! ### `parse_work` on the family record, before the merge -/

theorem parsedData_famRec (fam : List (String × String))
    (hnd : (fam.map Prod.fst).Nodup)
    (hdig : ∀ tv ∈ fam, tv.1.data ≠ [] ∧ ∀ c ∈ tv.1.data, c.isDigit = true) :
    parsedData (famRec fam) false = famPrefix ++ famEntries fam := by
  have h1 : basicStep (famRec fam) [] = famPrefix.take 6 := rfl
  have h2 : idsStep (famRec fam) (famPrefix.take 6) = famPrefix.take 8 := rfl
  have h3 : apcStep (famRec fam) (famPrefix.take 8) = famPrefix.take 9 := rfl
  have h4 : countsStep (famRec fam) (famPrefix.take 9) = famPrefix.take 15 := rfl
  have h5 : primaryLocationStep (famRec fam) (famPrefix.take 15) = famPrefix.take 17 := rfl
  have h6 : pubDateStep (famRec fam) (famPrefix.take 17) = famPrefix.take 18 := rfl
  have h7 : percentilesStep (famRec fam) (famPrefix.take 18) = famPrefix.take 18 := rfl
  have h8 : openAccessStep (famRec fam) (famPrefix.take 18) = famPrefix.take 20 := rfl
  have h9 : grantsStep (famRec fam) (famPrefix.take 20) = famPrefix.take 20 := rfl
  have h10 : countriesStep (famRec fam) (famPrefix.take 20) = famPrefix := rfl
  show displayStep (famRec fam) (countriesStep (famRec fam) (grantsStep (famRec fam)
    (openAccessStep (famRec fam) (percentilesStep (famRec fam) (pubDateStep (famRec fam)
    (primaryLocationStep (famRec fam) (countsStep (famRec fam) (apcStep (famRec fam)
    (idsStep (famRec fam) (basicStep (famRec fam) [])))))))))) = _
  rw [h1, h2, h3, h4, h5, h6, h7, h8, h9, h10]
  have hdots : ∀ tv ∈ fam, ∀ c ∈ tv.1.data, c ≠ '.' := by
    intro tv htv c hc he
    have hd := (hdig tv htv).2 c hc
    rw [he] at hd
    exact absurd hd (by decide)
  have hbr : ∀ q ∈ famPrefix, ∀ c ∈ (q.1 : String).data, c ≠ '[' := by decide
  have hfreshPrefix : ∀ tv ∈ fam, ∀ q ∈ famPrefix, q.1 ≠ famKey tv.1 := by
    intro tv _ q hq hc
    have hin : '[' ∈ (famKey tv.1).data := bracket_mem_famKey tv.1
    rw [← hc] at hin
    exact absurd rfl (hbr q hq '[' hin)
  show assignDisplay famPrefix (capTen ((findDisplayNames (famRec fam) "").foldl
    (fun g pv => if keepPath pv.1 then addGroup g pv.1 pv.2 else g) [])) = _
  have hpairs : findDisplayNames (famRec fam) "" =
      ("primary_location.source.display_name", Val.str "S1") :: famEntries fam := by
    show fdnFields (famBase ++ famEntries fam) "" = _
    rw [fdnFields_append, fdnFields_famEntries]
    rfl
  rw [hpairs, List.foldl_cons]
  rw [show (if keepPath ("primary_location.source.display_name", Val.str "S1").1 = true then
      addGroup [] ("primary_location.source.display_name", Val.str "S1").1
        ("primary_location.source.display_name", Val.str "S1").2
    else ([] : List (String × List Val))) = [] from by
    show (if keepPath "primary_location.source.display_name" = true
      then addGroup [] "primary_location.source.display_name" (Val.str "S1") else []) = []
    rw [show keepPath "primary_location.source.display_name" = false from by decide]
    rfl]
  rw [fold_addGroup_famEntries fam [] (fun tv _ q hq => absurd hq (List.not_mem_nil q)) hnd,
    List.nil_append, capTen_famGroups]
  exact assignDisplay_famGroups fam famPrefix hfreshPrefix hnd hdots

/-! ### Transfer lemmas for the merge on the family data -/

theorem isStrB_spec {v : Val} (h : isStrB v = true) : ∃ s, v = Val.str s := by
  cases v <;> first
    | exact ⟨_, rfl⟩
    | exact absurd h (by simp [isStrB])

theorem entry_eq_of_keys_nodup {β : Type} {l : List (String × β)}
    (hnd : (l.map Prod.fst).Nodup) {a b : String × β}
    (ha : a ∈ l) (hb : b ∈ l) (h : a.1 = b.1) : a = b := by
  obtain ⟨a1, a2⟩ := a
  obtain ⟨b1, b2⟩ := b
  have h1 := pyGet_eq_some_of_mem ha hnd
  have h2 := pyGet_eq_some_of_mem hb hnd
  simp only at h
  rw [h] at h1
  rw [h1] at h2
  injection h2 with h2
  rw [h, h2]

theorem insertDedup_map_str (acc : List String) (s : String) :
    insertDedup (acc.map Val.str) (Val.str s) = (insertDedupStr acc s).map Val.str := by
  unfold insertDedup insertDedupStr
  have h : ∀ l : List String, (l.map Val.str).any (fun w => pyEq w (Val.str s)) =
      l.any (fun w => w == s) := by
    intro l
    induction l with
    | nil => rfl
    | cons a rest ih =>
      rw [List.map_cons, List.any_cons, List.any_cons, ih]
      rfl
  rw [h]
  by_cases hc : acc.any (fun w => w == s) = true
  · rw [if_pos hc, if_pos hc]
  · rw [if_neg hc, if_neg hc, List.map_append]
    rfl

theorem foldl_insertDedup_map_str (l : List String) :
    ∀ acc : List String,
      (l.map Val.str).foldl insertDedup (acc.map Val.str) =
        (l.foldl insertDedupStr acc).map Val.str := by
  induction l with
  | nil => intro acc; rfl
  | cons s rest ih =>
    intro acc
    rw [List.map_cons, List.foldl_cons, List.foldl_cons, insertDedup_map_str, ih]

theorem dedupList_map_str (l : List String) :
    dedupList (l.map Val.str) = (dedupStrs l).map Val.str := by
  show (l.map Val.str).foldl insertDedup [] = _
  exact foldl_insertDedup_map_str l []

theorem map_str_inj {a b : List String} (h : a.map Val.str = b.map Val.str) : a = b := by
  induction a generalizing b with
  | nil => cases b with | nil => rfl | cons y ys => simp at h
  | cons x xs ih =>
    cases b with
    | nil => simp at h
    | cons y ys =>
      rw [List.map_cons, List.map_cons] at h
      injection h with h1 h2
      injection h1 with h1
      rw [h1, ih h2]

/-- Claim C2, amended: the display-name family values are collected in
encounter order under their indexed raw keys (first conjunct:
`parsed_data` holds them verbatim, in order, after the fixed prefix),
but the final merge then applies the same dedup-and-sort as every other
merged field: the flat `topics_display_name` key holds the single value
when the distinct-value set is a singleton, and the lexicographically
sorted, deduplicated, `|`-joined string when there are at least two
distinct values — not the encounter-order join the claim states. -/
theorem display_family_sorted_amended (fam : List (String × String))
    (hne : fam ≠ [])
    (hnd : (fam.map Prod.fst).Nodup)
    (hdig : ∀ tv ∈ fam, tv.1.data ≠ [] ∧ ∀ c ∈ tv.1.data, c.isDigit = true) :
    parsedData (famRec fam) false = famPrefix ++ famEntries fam ∧
    ∃ m w, parseWork (famRec fam) false = .ok m ∧
      pyGet m "topics_display_name" = some w ∧
      (∀ v, dedupStrs (fam.map Prod.snd) = [v] → w = Val.str v) ∧
      (1 < (dedupStrs (fam.map Prod.snd)).length →
        w = Val.str (pipeJoin (sortStrs (dedupStrs (fam.map Prod.snd))))) := by
  have hpd := parsedData_famRec fam hnd hdig
  refine ⟨hpd, ?_⟩
  have hnd_data : (((famPrefix ++ famEntries fam)).map Prod.fst).Nodup := by
    rw [List.map_append]
    apply List.Nodup.append
    · decide
    · rw [show (famEntries fam).map Prod.fst = (fam.map Prod.fst).map famKey from by
        simp only [famEntries, List.map_map]; rfl]
      exact List.Nodup.map (fun a b h => famKey_inj h) hnd
    · intro k hk1 hk2
      have hpk : ∀ k ∈ famPrefix.map Prod.fst, ∀ c ∈ k.data, c ≠ '[' := by decide
      rw [show (famEntries fam).map Prod.fst = (fam.map Prod.fst).map famKey from by
        simp only [famEntries, List.map_map]; rfl] at hk2
      obtain ⟨t, -, hteq⟩ := List.mem_map.mp hk2
      have hin : '[' ∈ (famKey t).data := bracket_mem_famKey t
      rw [hteq] at hin
      exact absurd rfl (hpk k hk1 '[' hin)
  have hstr : ∀ kv ∈ famPrefix ++ famEntries fam, ∃ s, kv.2 = Val.str s := by
    intro kv hkv
    rcases List.mem_append.mp hkv with h | h
    · have hb : ∀ kv ∈ famPrefix, isStrB kv.2 = true := by decide
      exact isStrB_spec (hb kv h)
    · simp only [famEntries, List.mem_map] at h
      obtain ⟨tv, htv, heq⟩ := h
      exact ⟨tv.2, by rw [← heq]⟩
  have hidem : ∀ kv ∈ famPrefix ++ famEntries fam,
      containsIndexS (stripS kv.1) = false := by
    intro kv hkv
    rcases List.mem_append.mp hkv with h | h
    · have hall : ∀ kv ∈ famPrefix, containsIndexS (stripS kv.1) = false := by decide
      exact hall kv h
    · simp only [famEntries, List.mem_map] at h
      obtain ⟨tv, htv, heq⟩ := h
      rw [← heq]
      show containsIndexS (stripS (famKey tv.1)) = false
      rw [stripS_famKey tv.1 (hdig tv htv).1 (hdig tv htv).2]
      decide
  have hkeys_strip : ∀ kv ∈ famPrefix, stripS kv.1 = kv.1 := by decide
  have hkeyne : ∀ kv ∈ famPrefix, kv.1 ≠ "topics_display_name" := by decide
  have hpfnd : (famPrefix.map Prod.fst).Nodup := by decide
  have hsep : ∀ kv ∈ famPrefix ++ famEntries fam, containsIndexS kv.1 = false →
      ∀ kv' ∈ famPrefix ++ famEntries fam, stripS kv'.1 = kv.1 → kv' = kv := by
    intro kv hkv hplain kv' hkv' hs
    rcases List.mem_append.mp hkv with h | h
    · rcases List.mem_append.mp hkv' with h' | h'
      · exact entry_eq_of_keys_nodup hpfnd h' h
          (by rw [← hkeys_strip kv' h']; exact hs)
      · simp only [famEntries, List.mem_map] at h'
        obtain ⟨tv, htv, heq⟩ := h'
        rw [← heq] at hs
        have hs2 : stripS (famKey tv.1) = kv.1 := hs
        rw [stripS_famKey tv.1 (hdig tv htv).1 (hdig tv htv).2] at hs2
        exact absurd hs2.symm (hkeyne kv h)
    · simp only [famEntries, List.mem_map] at h
      obtain ⟨tv, htv, heq⟩ := h
      rw [← heq] at hplain
      have hplain2 : containsIndexS (famKey tv.1) = false := hplain
      rw [containsIndexS_famKey tv.1 (hdig tv htv).1 (hdig tv htv).2] at hplain2
      exact absurd hplain2 (by decide)
  obtain ⟨m, hm, hmnd, hmidx, hmiff, hmval⟩ :=
    mergeCharacterization_aux (famPrefix ++ famEntries fam) hnd_data hstr hidem hsep
  have hpw : parseWork (famRec fam) false = .ok m := by
    show mergeAndDeduplicate (parsedData (famRec fam) false) = .ok m
    rw [hpd]
    exact hm
  have hsome : (pyGet m "topics_display_name").isSome := by
    rw [hmiff]
    cases fam with
    | nil => exact absurd rfl hne
    | cons tv rest =>
      refine ⟨(famKey tv.1, Val.str tv.2), ?_, ?_⟩
      · exact List.mem_append.mpr (Or.inr (by
          rw [famEntries_cons]; exact List.mem_cons_self _ _))
      · exact stripS_famKey tv.1 (hdig tv (List.mem_cons_self _ _)).1
          (hdig tv (List.mem_cons_self _ _)).2
  obtain ⟨w, hw⟩ := Option.isSome_iff_exists.mp hsome
  have hcv : contribVals (famPrefix ++ famEntries fam) "topics_display_name" =
      fam.map (fun tv => Val.str tv.2) := by
    show (((famPrefix ++ famEntries fam)).filter
      (fun kv => stripS kv.1 = "topics_display_name")).map Prod.snd = _
    rw [List.filter_append]
    have hf1 : famPrefix.filter (fun kv => stripS kv.1 = "topics_display_name") = [] := by
      rw [List.filter_eq_nil_iff]
      intro kv hkv
      simp only [decide_eq_true_eq]
      exact fun hc => hkeyne kv hkv ((hkeys_strip kv hkv).symm.trans hc)
    have hf2 : (famEntries fam).filter
        (fun kv => stripS kv.1 = "topics_display_name") = famEntries fam := by
      rw [List.filter_eq_self]
      intro kv hkv
      simp only [famEntries, List.mem_map] at hkv
      obtain ⟨tv, htv, heq⟩ := hkv
      rw [← heq]
      simp only [decide_eq_true_eq]
      exact stripS_famKey tv.1 (hdig tv htv).1 (hdig tv htv).2
    rw [hf1, hf2, List.nil_append]
    simp only [famEntries, List.map_map]
    rfl
  have hdd : dedupList (contribVals (famPrefix ++ famEntries fam)
      "topics_display_name") = (dedupStrs (fam.map Prod.snd)).map Val.str := by
    rw [hcv]
    have hmm2 : (fam.map Prod.snd).map Val.str = fam.map (fun tv => Val.str tv.2) := by
      rw [List.map_map]
      rfl
    rw [← hmm2]
    exact dedupList_map_str (fam.map Prod.snd)
  obtain ⟨ss, hss, hssne, hsingle, hlong⟩ := hmval "topics_display_name" w hw
  have hss' : ss = dedupStrs (fam.map Prod.snd) :=
    map_str_inj (hss.symm.trans hdd)
  refine ⟨m, w, hpw, hw, ?_, ?_⟩
  · intro v hv
    exact hsingle v (by rw [hss', hv])
  · intro hlen
    have hres := hlong (by rw [hss']; exact hlen)
    rw [hss'] at hres
    exact hres

/-- Witness for the amended claim C2: the two-topic record with tags
`0`, `1` and values `b`, `a` in that encounter order. -/
theorem display_family_sorted_amended_witness :
    ([("0", "b"), ("1", "a")] ≠ ([] : List (String × String))) ∧
    (([("0", "b"), ("1", "a")].map Prod.fst).Nodup) ∧
    (parsedData (famRec [("0", "b"), ("1", "a")]) false =
      famPrefix ++ famEntries [("0", "b"), ("1", "a")] ∧
     ∃ m w, parseWork (famRec [("0", "b"), ("1", "a")]) false = .ok m ∧
       pyGet m "topics_display_name" = some w ∧
       (∀ v, dedupStrs ([("0", "b"), ("1", "a")].map Prod.snd) = [v] → w = Val.str v) ∧
       (1 < (dedupStrs ([("0", "b"), ("1", "a")].map Prod.snd)).length →
         w = Val.str (pipeJoin (sortStrs
           (dedupStrs ([("0", "b"), ("1", "a")].map Prod.snd)))))) := by
  refine ⟨by decide, by decide, ?_⟩
  exact display_family_sorted_amended [("0", "b"), ("1", "a")] (by decide) (by decide)
    (by decide)

end OpenAlex
